import Mathlib

/-!
Verification development for the praxis repository (beam search decoding,
stacking/unstacking layer, masked-LM data augmentation).

Tensors are shallowly embedded as (nested) lists; float32 scores are
modelled as rationals; int32 ids and lengths as integers.  Batched jax
operations whose semantics is an independent map over the batch axis are
embedded per batch element together with an explicit batched wrapper.
-/

namespace Praxis

/-! ### Modelling jax primitives used by update_topk_scores_with_eos -/

/-- Model of jax.nn.one_hot(i, n) for a scalar index i: a list of length n
with a 1 at position i and 0 elsewhere.  The source builds an int32
one-hot; jax upcasts it to the other operand's dtype inside each einsum,
which the embedding reflects by instantiating the ring. -/
def oneHot {α : Type} [Zero α] [One α] : Nat → Nat → List α
  | _, 0 => []
  | 0, n + 1 => 1 :: List.replicate n 0
  | i + 1, n + 1 => 0 :: oneHot i n

/-- Model of the einsum "bk,bjk->bj" contraction at one (b, j): dot
product of a row with a one-hot row. -/
def einsumDot {α : Type} [Semiring α] (xs h : List α) : α :=
  (List.zipWith (fun x o => x * o) xs h).sum

/-- Scale an id row by a one-hot weight. -/
def vecScale (c : Int) (v : List Int) : List Int := v.map (fun x => c * x)

/-- Pointwise sum of two id rows. -/
def vecAdd (v w : List Int) : List Int := List.zipWith (· + ·) v w

/-- Model of the einsum "bkt,bjk->bjt" contraction at one (b, j):
the sum over the concatenated beam axis of id rows scaled by the one-hot
weights.  The token axis has the length of the first id row. -/
def einsumIds (idss : List (List Int)) (h : List Int) : List Int :=
  (List.zipWith vecScale h idss).foldr vecAdd
    (List.replicate (idss.headD []).length 0)

/-- Comparator modelling jax.lax.top_k on (index, value) pairs: a larger
value comes first and ties are resolved in favor of the lower index. -/
def topkLe (a b : Nat × ℚ) : Bool := (b.2 < a.2) || (a.2 == b.2 && a.1 ≤ b.1)

/-- Model of jax.lax.top_k(xs, k) on one row: the k largest values in
descending order together with their indices; on ties the lower-index
element appears first (documented jax.lax.top_k behavior). -/
def top_k (xs : List ℚ) (k : Nat) : List ℚ × List Nat :=
  let sorted := xs.enum.mergeSort topkLe
  (((sorted.take k).map Prod.snd), ((sorted.take k).map Prod.fst))

/-! ### update_topk_scores_with_eos (beam_search.py, lines 35-62) -/

/-- Fields of the DecodeInfo tuple (ids, decode_lengths, scores,
scores_norm) for a single batch element, each list indexed by the beam
dimension.  The source operates on tensors with a leading batch axis b;
every operation in update_topk_scores_with_eos (concatenate on the beam
axis, top_k on the last axis, one_hot, einsum with a free b index) acts
independently per batch element, so the function is embedded per batch
element. -/
structure DecodeInfo where
  ids : List (List Int)
  lengths : List Int
  scores : List ℚ
  scores_norm : List ℚ
deriving Repr, DecidableEq

/-- Embedding of update_topk_scores_with_eos for a single batch element:
concatenate end hypotheses and current hypotheses along the beam axis,
take the top k normalized scores, and gather ids, lengths and raw scores
through the one-hot einsum exactly as the source does. -/
def update_topk_scores_with_eos (end_hyps cur_hyps : DecodeInfo) : DecodeInfo :=
  let k := end_hyps.ids.length
  let m := cur_hyps.ids.length
  let ids := end_hyps.ids ++ cur_hyps.ids
  let lengths := end_hyps.lengths ++ cur_hyps.lengths
  let scores := end_hyps.scores ++ cur_hyps.scores
  let scores_norm := end_hyps.scores_norm ++ cur_hyps.scores_norm
  let tk := top_k scores_norm k
  let end_scores_norm := tk.1
  let indices := tk.2
  let end_ids := indices.map (fun i => einsumIds ids (oneHot i (k + m)))
  let end_lengths := indices.map (fun i => einsumDot lengths (oneHot i (k + m)))
  let end_scores := indices.map (fun i => einsumDot scores (oneHot i (k + m)))
  ⟨end_ids, end_lengths, end_scores, end_scores_norm⟩

/-! ### Gather lemmas for the one-hot einsum -/

theorem oneHot_length {α : Type} [Zero α] [One α] (i n : Nat) :
    (oneHot (α := α) i n).length = n := by
  induction n generalizing i with
  | zero => cases i <;> simp [oneHot]
  | succ n ih =>
    cases i with
    | zero => simp [oneHot]
    | succ i => simp [oneHot, ih]

theorem einsumDot_zero {α : Type} [Semiring α] (xs : List α) (n : Nat) :
    einsumDot xs (List.replicate n 0) = 0 := by
  induction xs generalizing n with
  | nil => simp [einsumDot]
  | cons x xs ih =>
    cases n with
    | zero => simp [einsumDot]
    | succ n =>
      simp only [einsumDot, List.replicate_succ, List.zipWith_cons_cons,
        List.sum_cons, mul_zero, zero_add] at *
      exact ih n

theorem einsumDot_oneHot {α : Type} [Semiring α] (xs : List α) (i : Nat)
    (hi : i < xs.length) :
    einsumDot xs (oneHot i xs.length) = xs.getD i 0 := by
  induction xs generalizing i with
  | nil => simp at hi
  | cons x xs ih =>
    cases i with
    | zero =>
      simp only [List.length_cons, oneHot, einsumDot,
        List.zipWith_cons_cons, List.sum_cons, mul_one]
      have := einsumDot_zero xs xs.length
      simp only [einsumDot] at this
      simp [this]
    | succ i =>
      simp only [List.length_cons, oneHot, einsumDot,
        List.zipWith_cons_cons, List.sum_cons, mul_zero, zero_add]
      have hi' : i < xs.length := by simp at hi; omega
      have := ih i hi'
      simp only [einsumDot] at this
      simp [this]

theorem vecScale_one (v : List Int) : vecScale 1 v = v := by
  simp [vecScale]

theorem vecScale_zero (v : List Int) :
    vecScale 0 v = List.replicate v.length 0 := by
  simp [vecScale, List.eq_replicate_iff]

theorem vecAdd_zero_right (v : List Int) :
    vecAdd v (List.replicate v.length 0) = v := by
  induction v with
  | nil => rfl
  | cons x xs ih =>
    show List.zipWith _ (x :: xs) (List.replicate (xs.length + 1) 0) = _
    rw [List.replicate_succ, List.zipWith_cons_cons, add_zero]
    exact congrArg (x :: ·) ih

theorem vecAdd_zero_left (v : List Int) :
    vecAdd (List.replicate v.length 0) v = v := by
  induction v with
  | nil => rfl
  | cons x xs ih =>
    show List.zipWith _ (List.replicate (xs.length + 1) 0) (x :: xs) = _
    rw [List.replicate_succ, List.zipWith_cons_cons, zero_add]
    exact congrArg (x :: ·) ih

theorem vecAdd_replicate_zero (t : Nat) :
    vecAdd (List.replicate t (0 : Int)) (List.replicate t 0) =
      List.replicate t 0 := by
  simpa using vecAdd_zero_right (List.replicate t 0)

theorem foldr_vecAdd_zero (rest : List (List Int)) (n t : Nat)
    (h : ∀ v ∈ rest, v.length = t) :
    (List.zipWith vecScale (List.replicate n (0 : Int)) rest).foldr vecAdd
      (List.replicate t 0) = List.replicate t 0 := by
  induction rest generalizing n with
  | nil => simp
  | cons w rest ih =>
    cases n with
    | zero => simp
    | succ n =>
      simp only [List.replicate_succ, List.zipWith_cons_cons, List.foldr_cons]
      rw [ih n (fun v hv => h v (List.mem_cons_of_mem _ hv))]
      rw [vecScale_zero, h w (List.mem_cons_self _ _)]
      exact vecAdd_replicate_zero t

theorem foldr_vecAdd_oneHot (idss : List (List Int)) (i t : Nat)
    (h : ∀ v ∈ idss, v.length = t) (hi : i < idss.length) :
    (List.zipWith vecScale (oneHot i idss.length) idss).foldr vecAdd
      (List.replicate t 0) = idss.getD i [] := by
  induction idss generalizing i with
  | nil => simp at hi
  | cons v rest ih =>
    cases i with
    | zero =>
      simp only [List.length_cons, oneHot, List.zipWith_cons_cons,
        List.foldr_cons]
      rw [foldr_vecAdd_zero rest rest.length t
        (fun w hw => h w (List.mem_cons_of_mem _ hw))]
      rw [vecScale_one]
      have hv := h v (List.mem_cons_self _ _)
      rw [← hv]
      simp [vecAdd_zero_right]
    | succ i =>
      simp only [List.length_cons, oneHot, List.zipWith_cons_cons,
        List.foldr_cons]
      have hi' : i < rest.length := by simp at hi; omega
      rw [ih i (fun w hw => h w (List.mem_cons_of_mem _ hw)) hi']
      rw [vecScale_zero]
      have hmem : rest.getD i [] ∈ rest := by
        rw [List.getD_eq_getElem _ _ hi']
        exact List.getElem_mem hi'
      have hlen : (rest.getD i []).length = t := h _ (List.mem_cons_of_mem _ hmem)
      rw [h v (List.mem_cons_self _ _), List.getD_cons_succ, ← hlen]
      exact vecAdd_zero_left _

theorem einsumIds_oneHot (idss : List (List Int)) (i t : Nat)
    (h : ∀ v ∈ idss, v.length = t) (hi : i < idss.length) :
    einsumIds idss (oneHot i idss.length) = idss.getD i [] := by
  unfold einsumIds
  have hhead : (idss.headD []).length = t := by
    cases idss with
    | nil => simp at hi
    | cons v rest => exact h v (List.mem_cons_self _ _)
  rw [hhead]
  exact foldr_vecAdd_oneHot idss i t h hi

theorem topkLe_trans (a b c : Nat × ℚ) (h₁ : topkLe a b = true)
    (h₂ : topkLe b c = true) : topkLe a c = true := by
  simp only [topkLe, Bool.or_eq_true, decide_eq_true_eq, Bool.and_eq_true,
    beq_iff_eq] at *
  rcases h₁ with h | ⟨he, hi⟩ <;> rcases h₂ with h' | ⟨he', hi'⟩
  · exact Or.inl (lt_trans h' h)
  · exact Or.inl (he' ▸ h)
  · exact Or.inl (he ▸ h')
  · exact Or.inr ⟨he.trans he', le_trans hi hi'⟩

theorem topkLe_total (a b : Nat × ℚ) : (topkLe a b || topkLe b a) = true := by
  simp only [topkLe, Bool.or_eq_true, decide_eq_true_eq, Bool.and_eq_true,
    beq_iff_eq]
  rcases lt_trichotomy a.2 b.2 with h | h | h
  · exact Or.inr (Or.inl h)
  · rcases Nat.le_total a.1 b.1 with hi | hi
    · exact Or.inl (Or.inr ⟨h, hi⟩)
    · exact Or.inr (Or.inr ⟨h.symm, hi⟩)
  · exact Or.inl (Or.inl h)

/-- Union of two DecodeInfo batches in concatenation order (end
hypotheses before current hypotheses), as built inside
update_topk_scores_with_eos. -/
def unionInfo (e c : DecodeInfo) : DecodeInfo :=
  ⟨e.ids ++ c.ids, e.lengths ++ c.lengths, e.scores ++ c.scores,
    e.scores_norm ++ c.scores_norm⟩

/-- Index i ranks strictly before index j in the normalized-score order
with stable ties: a strictly larger normalized score, or an equal score at
a smaller concatenation position. -/
def normRank (norm : List ℚ) (i j : Nat) : Prop :=
  norm.getD j 0 < norm.getD i 0 ∨ (norm.getD i 0 = norm.getD j 0 ∧ i < j)

/-- Every element of the stably sorted enumeration is a genuine
(index, value) pair of the underlying list. -/
theorem mem_mergeSort_enum {norm : List ℚ} {p : Nat × ℚ}
    (hp : p ∈ norm.enum.mergeSort topkLe) :
    p.1 < norm.length ∧ p.2 = norm.getD p.1 0 := by
  have hmem : p ∈ norm.enum := (List.mergeSort_perm norm.enum topkLe).mem_iff.mp hp
  obtain ⟨i, x⟩ := p
  have := List.mem_enum hmem
  exact ⟨this.1, by rw [this.2, List.getD_eq_getElem _ _ this.1]⟩

/-- C1: update_topk_scores_with_eos returns exactly the top k entries by
normalized score from the (k+m)-element concatenation of end hypotheses
and candidate hypotheses.  There is a duplicate-free selection sel of k
concatenation indices such that all four returned fields are gathered from
those same indices (no field permutation mismatch), sel is ordered by
normalized score with stable index ties, and every unselected candidate is
ranked below every selected one (ties won by the earlier concatenation
position). -/
theorem update_topk_scores_with_eos_correct
    (e c : DecodeInfo) (k m t : Nat)
    (heid : e.ids.length = k) (helen : e.lengths.length = k)
    (hesc : e.scores.length = k) (hen : e.scores_norm.length = k)
    (hcid : c.ids.length = m) (hclen : c.lengths.length = m)
    (hcsc : c.scores.length = m) (hcn : c.scores_norm.length = m)
    (hrow : ∀ v ∈ e.ids ++ c.ids, v.length = t) :
    ∃ sel : List Nat,
      sel.length = k ∧ sel.Nodup ∧ (∀ i ∈ sel, i < k + m) ∧
      (update_topk_scores_with_eos e c).ids
        = sel.map (fun i => (unionInfo e c).ids.getD i []) ∧
      (update_topk_scores_with_eos e c).lengths
        = sel.map (fun i => (unionInfo e c).lengths.getD i 0) ∧
      (update_topk_scores_with_eos e c).scores
        = sel.map (fun i => (unionInfo e c).scores.getD i 0) ∧
      (update_topk_scores_with_eos e c).scores_norm
        = sel.map (fun i => (unionInfo e c).scores_norm.getD i 0) ∧
      sel.Pairwise (normRank (unionInfo e c).scores_norm) ∧
      (∀ i, i < k + m → i ∉ sel → ∀ j ∈ sel,
        normRank (unionInfo e c).scores_norm j i) := by
  classical
  set norm := e.scores_norm ++ c.scores_norm with hnorm
  have hnlen : norm.length = k + m := by
    simp [hnorm, List.length_append, hen, hcn]
  set sorted := norm.enum.mergeSort topkLe with hsorted
  have hperm : sorted.Perm norm.enum := List.mergeSort_perm _ _
  have hpw : sorted.Pairwise (fun a b => topkLe a b = true) :=
    List.sorted_mergeSort topkLe_trans topkLe_total _
  have hslen : sorted.length = k + m := by
    rw [hsorted, List.length_mergeSort, List.enum_length, hnlen]
  have hfstnd : (sorted.map Prod.fst).Nodup := by
    have hp : (sorted.map Prod.fst).Perm (norm.enum.map Prod.fst) :=
      hperm.map Prod.fst
    rw [List.enum_map_fst] at hp
    exact (hp.nodup_iff).mpr (List.nodup_range _)
  have hmemspec : ∀ p ∈ sorted, p.1 < k + m ∧ p.2 = norm.getD p.1 0 :=
    fun p hp => by
      have := mem_mergeSort_enum (hsorted ▸ hp)
      exact ⟨hnlen ▸ this.1, this.2⟩
  refine ⟨(sorted.take k).map Prod.fst, ?_, ?_, ?_, ?_, ?_, ?_, ?_, ?_, ?_⟩
  · rw [List.length_map, List.length_take, hslen]
    omega
  · rw [List.map_take]
    exact (List.take_sublist _ _).nodup hfstnd
  · intro i hi
    rcases List.mem_map.mp hi with ⟨p, hp, hpi⟩
    exact hpi ▸ (hmemspec p ((List.take_sublist _ _).mem hp)).1
  · -- ids field
    show (update_topk_scores_with_eos e c).ids = _
    simp only [update_topk_scores_with_eos, top_k, unionInfo, heid, hcid,
      ← hnorm, ← hsorted]
    refine List.map_congr_left ?_
    intro i hi
    rcases List.mem_map.mp hi with ⟨p, hp, hpi⟩
    have hmem := hmemspec p ((List.take_sublist _ _).mem hp)
    have hlen : (e.ids ++ c.ids).length = k + m := by
      rw [List.length_append, heid, hcid]
    rw [← hlen]
    exact einsumIds_oneHot _ _ t hrow (by rw [hlen, ← hpi] at *; exact hmem.1)
  · -- lengths field
    show (update_topk_scores_with_eos e c).lengths = _
    simp only [update_topk_scores_with_eos, top_k, unionInfo, heid, hcid,
      ← hnorm, ← hsorted]
    refine List.map_congr_left ?_
    intro i hi
    rcases List.mem_map.mp hi with ⟨p, hp, hpi⟩
    have hmem := hmemspec p ((List.take_sublist _ _).mem hp)
    have hlen : (e.lengths ++ c.lengths).length = k + m := by
      rw [List.length_append, helen, hclen]
    rw [← hlen]
    exact einsumDot_oneHot _ _ (by rw [hlen, ← hpi] at *; exact hmem.1)
  · -- scores field
    show (update_topk_scores_with_eos e c).scores = _
    simp only [update_topk_scores_with_eos, top_k, unionInfo, heid, hcid,
      ← hnorm, ← hsorted]
    refine List.map_congr_left ?_
    intro i hi
    rcases List.mem_map.mp hi with ⟨p, hp, hpi⟩
    have hmem := hmemspec p ((List.take_sublist _ _).mem hp)
    have hlen : (e.scores ++ c.scores).length = k + m := by
      rw [List.length_append, hesc, hcsc]
    rw [← hlen]
    exact einsumDot_oneHot _ _ (by rw [hlen, ← hpi] at *; exact hmem.1)
  · -- scores_norm field
    show (update_topk_scores_with_eos e c).scores_norm = _
    simp only [update_topk_scores_with_eos, top_k, unionInfo, heid, hcid,
      ← hnorm, ← hsorted]
    rw [List.map_map]
    refine List.map_congr_left ?_
    intro p hp
    have hmem := hmemspec p ((List.take_sublist _ _).mem hp)
    simpa using hmem.2
  · -- pairwise stable rank order on the selection
    rw [List.pairwise_map]
    have hpwt : (sorted.take k).Pairwise (fun a b => topkLe a b = true) :=
      hpw.sublist (List.take_sublist _ _)
    have hndt : (sorted.take k).Pairwise (fun a b => a.1 ≠ b.1) := by
      have h1 : ((sorted.take k).map Prod.fst).Nodup := by
        rw [List.map_take]
        exact (List.take_sublist _ _).nodup hfstnd
      exact List.pairwise_map.mp h1
    refine (hpwt.and hndt).imp_of_mem ?_
    intro a b ha hb hab
    have hma := hmemspec a ((List.take_sublist _ _).mem ha)
    have hmb := hmemspec b ((List.take_sublist _ _).mem hb)
    rcases hab with ⟨hle, hne⟩
    simp only [topkLe, Bool.or_eq_true, decide_eq_true_eq,
      Bool.and_eq_true, beq_iff_eq] at hle
    unfold normRank
    simp only [unionInfo, ← hnorm]
    rcases hle with h | ⟨he, hi⟩
    · exact Or.inl (hma.2 ▸ hmb.2 ▸ h)
    · exact Or.inr ⟨hma.2 ▸ hmb.2 ▸ he, lt_of_le_of_ne hi hne⟩
  · -- every unselected index is dominated by every selected index
    intro i hi hnotin j hj
    have hienum : (i, norm.getD i 0) ∈ sorted := by
      rw [hsorted]
      refine (List.mergeSort_perm norm.enum topkLe).mem_iff.mpr ?_
      have hi' : i < norm.enum.length := by rw [List.enum_length, hnlen]; exact hi
      have hgt : norm.enum[i] = (i, norm[i]) := List.getElem_enum _ _ hi'
      rw [List.getD_eq_getElem _ _ (hnlen ▸ hi), ← hgt]
      exact List.getElem_mem hi'
    rw [← List.take_append_drop k sorted] at hienum
    rcases List.mem_append.mp hienum with hmem | hmem
    · exact absurd (List.mem_map.mpr ⟨_, hmem, rfl⟩) hnotin
    rcases List.mem_map.mp hj with ⟨p, hp, hpj⟩
    have hpwapp := hpw
    rw [← List.take_append_drop k sorted, List.pairwise_append] at hpwapp
    have hle := hpwapp.2.2 p hp _ hmem
    have hnein : p.1 ≠ i := by
      intro heq
      have hnd := hfstnd
      rw [← List.take_append_drop k sorted, List.map_append,
        List.nodup_append] at hnd
      have hin1 : p.1 ∈ (sorted.take k).map Prod.fst :=
        List.mem_map.mpr ⟨p, hp, rfl⟩
      have hin2 : i ∈ (sorted.drop k).map Prod.fst :=
        List.mem_map.mpr ⟨(i, norm.getD i 0), hmem, rfl⟩
      exact hnd.2.2 hin1 (by rw [heq]; exact hin2)
    have hmp := hmemspec p ((List.take_sublist _ _).mem hp)
    simp only [topkLe, Bool.or_eq_true, decide_eq_true_eq,
      Bool.and_eq_true, beq_iff_eq] at hle
    unfold normRank
    simp only [unionInfo, ← hnorm]
    rcases hle with h | ⟨he, hord⟩
    · refine Or.inl ?_
      rw [← hpj, ← hmp.2]
      exact h
    · refine Or.inr ⟨?_, ?_⟩
      · rw [← hpj, ← hmp.2]
        exact he
      · rw [← hpj]
        exact lt_of_le_of_ne hord hnein

/-- Witness for C1 at the spec's synthetic test: k = 2 end hypotheses with
normalized scores [5, 3] merged with m = 2 candidates with normalized
scores [9, 1]. -/
theorem update_topk_scores_with_eos_correct_witness :
    ∃ sel : List Nat,
      sel.length = 2 ∧ sel.Nodup ∧ (∀ i ∈ sel, i < 2 + 2) ∧
      (update_topk_scores_with_eos ⟨[[1], [2]], [3, 4], [5, 3], [5, 3]⟩
          ⟨[[9], [8]], [5, 6], [9, 1], [9, 1]⟩).ids
        = sel.map (fun i => (unionInfo ⟨[[1], [2]], [3, 4], [5, 3], [5, 3]⟩
            ⟨[[9], [8]], [5, 6], [9, 1], [9, 1]⟩).ids.getD i []) ∧
      (update_topk_scores_with_eos ⟨[[1], [2]], [3, 4], [5, 3], [5, 3]⟩
          ⟨[[9], [8]], [5, 6], [9, 1], [9, 1]⟩).lengths
        = sel.map (fun i => (unionInfo ⟨[[1], [2]], [3, 4], [5, 3], [5, 3]⟩
            ⟨[[9], [8]], [5, 6], [9, 1], [9, 1]⟩).lengths.getD i 0) ∧
      (update_topk_scores_with_eos ⟨[[1], [2]], [3, 4], [5, 3], [5, 3]⟩
          ⟨[[9], [8]], [5, 6], [9, 1], [9, 1]⟩).scores
        = sel.map (fun i => (unionInfo ⟨[[1], [2]], [3, 4], [5, 3], [5, 3]⟩
            ⟨[[9], [8]], [5, 6], [9, 1], [9, 1]⟩).scores.getD i 0) ∧
      (update_topk_scores_with_eos ⟨[[1], [2]], [3, 4], [5, 3], [5, 3]⟩
          ⟨[[9], [8]], [5, 6], [9, 1], [9, 1]⟩).scores_norm
        = sel.map (fun i => (unionInfo ⟨[[1], [2]], [3, 4], [5, 3], [5, 3]⟩
            ⟨[[9], [8]], [5, 6], [9, 1], [9, 1]⟩).scores_norm.getD i 0) ∧
      sel.Pairwise (normRank (unionInfo ⟨[[1], [2]], [3, 4], [5, 3], [5, 3]⟩
        ⟨[[9], [8]], [5, 6], [9, 1], [9, 1]⟩).scores_norm) ∧
      (∀ i, i < 2 + 2 → i ∉ sel → ∀ j ∈ sel,
        normRank (unionInfo ⟨[[1], [2]], [3, 4], [5, 3], [5, 3]⟩
          ⟨[[9], [8]], [5, 6], [9, 1], [9, 1]⟩).scores_norm j i) :=
  update_topk_scores_with_eos_correct
    ⟨[[1], [2]], [3, 4], [5, 3], [5, 3]⟩
    ⟨[[9], [8]], [5, 6], [9, 1], [9, 1]⟩ 2 2 1
    rfl rfl rfl rfl rfl rfl rfl rfl (by decide)

/-! ### JTensor model and shuffle_state (beam_search.py, lines 65-79) -/

/-- Model of a jax tensor: an explicit shape together with the row-major
flattened data. -/
structure JT (α : Type) where
  shape : List Nat
  data : List α
deriving Repr, DecidableEq

/-- Contiguous slice of the flattened data: data[start .. start+len). -/
def sliceRow {α : Type} (data : List α) (start len : Nat) : List α :=
  (data.drop start).take len

/-- Embedding of shuffle_state: a tensor of rank < 2 (such as a scalar
time_step counter) is returned unchanged; a tensor of rank >= 2 viewed as
[b0, b1, ...] is gathered along its second axis per batch row, i.e.
vmap(lambda s, i: jnp.take(s, i, axis=0))(x, hyp_id). -/
def shuffle_state {α : Type} (x : JT α) (hyp_id : List (List Nat)) : JT α :=
  match x.shape with
  | b₀ :: b₁ :: rest =>
    let m := rest.prod
    ⟨x.shape,
      (List.range b₀).flatMap (fun b =>
        (hyp_id.getD b []).flatMap (fun i =>
          sliceRow x.data ((b * b₁ + i) * m) m))⟩
  | _ => x

/-! ### getD lemmas for uniform-chunk flatMap -/

theorem getD_zipWith {α β γ : Type} (f : α → β → γ) (a : List α)
    (b : List β) (i : Nat) (da : α) (db : β) (dc : γ)
    (ha : i < a.length) (hb : i < b.length) :
    (List.zipWith f a b).getD i dc = f (a.getD i da) (b.getD i db) := by
  induction a generalizing b i with
  | nil => simp at ha
  | cons x xs ih =>
    cases b with
    | nil => simp at hb
    | cons y ys =>
      cases i with
      | zero => rfl
      | succ i =>
        simp only [List.zipWith_cons_cons, List.getD_cons_succ]
        exact ih ys i (by simpa using ha) (by simpa using hb)

theorem getD_map_lt {α β : Type} (f : α → β) (l : List α) (i : Nat)
    (da : α) (db : β) (hi : i < l.length) :
    (l.map f).getD i db = f (l.getD i da) := by
  rw [List.getD_eq_getElem?_getD, List.getElem?_map,
    List.getElem?_eq_getElem hi, List.getD_eq_getElem _ _ hi]
  rfl

theorem getD_range_map {α : Type} (f : Nat → α) (n i : Nat) (d : α)
    (hi : i < n) :
    (((List.range n).map f).getD i d) = f i := by
  rw [List.getD_eq_getElem?_getD, List.getElem?_map, List.getElem?_range hi]
  rfl

/-- Element (j*mlen + r) of a flatMap whose chunks all have length mlen is
element r of chunk j. -/
theorem flatMap_uniform_getD {β γ : Type} (l : List γ) (g : γ → List β)
    (mlen : Nat) (hg : ∀ a ∈ l, (g a).length = mlen) (j r : Nat)
    (hj : j < l.length) (hr : r < mlen) (d : β) :
    (l.flatMap g).getD (j * mlen + r) d = (g (l.get ⟨j, hj⟩)).getD r d := by
  induction l generalizing j with
  | nil => simp at hj
  | cons a l ih =>
    cases j with
    | zero =>
      simp only [List.flatMap_cons, Nat.zero_mul, Nat.zero_add]
      have hra : r < (g a).length := by
        rw [hg a (List.mem_cons_self _ _)]; exact hr
      rw [List.getD_append _ _ _ _ hra]
      rfl
    | succ j =>
      simp only [List.flatMap_cons]
      have hlen : (g a).length = mlen := hg a (List.mem_cons_self _ _)
      have hidx : (j + 1) * mlen + r = (g a).length + (j * mlen + r) := by
        rw [hlen]; ring
      have hj' : j < l.length := by simpa using hj
      rw [hidx, List.getD_eq_getElem?_getD,
        List.getElem?_append_right (by omega), Nat.add_sub_cancel_left,
        ← List.getD_eq_getElem?_getD]
      exact ih (fun b hb => hg b (List.mem_cons_of_mem _ hb)) j hj'

theorem flatMap_uniform_length {β γ : Type} (l : List γ) (g : γ → List β)
    (mlen : Nat) (hg : ∀ a ∈ l, (g a).length = mlen) :
    (l.flatMap g).length = l.length * mlen := by
  induction l with
  | nil => simp
  | cons a l ih =>
    simp only [List.flatMap_cons, List.length_append,
      hg a (List.mem_cons_self _ _),
      ih (fun b hb => hg b (List.mem_cons_of_mem _ hb)), List.length_cons]
    ring

theorem sliceRow_length {α : Type} (data : List α) (start len : Nat)
    (h : start + len ≤ data.length) :
    (sliceRow data start len).length = len := by
  simp only [sliceRow, List.length_take, List.length_drop]
  omega

theorem sliceRow_getD {α : Type} (data : List α) (start len r : Nat)
    (hr : r < len) (d : α) :
    (sliceRow data start len).getD r d = data.getD (start + r) d := by
  simp only [sliceRow, List.getD_eq_getElem?_getD, List.getElem?_take,
    if_pos hr, List.getElem?_drop]

theorem getD_mem_of_lt {α : Type} (l : List α) (i : Nat) (d : α)
    (h : i < l.length) : l.getD i d ∈ l := by
  rw [List.getD_eq_getElem _ _ h]
  exact List.getElem_mem h

/-- C7: shuffle_state leaves every tensor of rank < 2 (for example a
scalar step counter) untouched, and gathers every tensor of rank >= 2
along its beam axis according to hyp_id: viewing the shape as
[b0, b1, rest...], output entry (b, j, r) is input entry
(b, hyp_id[b][j], r). -/
theorem shuffle_state_rank_spec (x : JT ℚ) (hyp : List (List Nat)) :
    (x.shape.length < 2 → shuffle_state x hyp = x) ∧
    (∀ b₀ b₁ rest, x.shape = b₀ :: b₁ :: rest →
      x.data.length = b₀ * (b₁ * rest.prod) →
      hyp.length = b₀ →
      (∀ row ∈ hyp, row.length = b₁) →
      (∀ row ∈ hyp, ∀ i ∈ row, i < b₁) →
      (shuffle_state x hyp).shape = x.shape ∧
      ∀ b j r, b < b₀ → j < b₁ → r < rest.prod →
        (shuffle_state x hyp).data.getD ((b * b₁ + j) * rest.prod + r) 0
          = x.data.getD
              ((b * b₁ + (hyp.getD b []).getD j 0) * rest.prod + r) 0) := by
  obtain ⟨shape, data⟩ := x
  constructor
  · intro hlt
    match shape with
    | [] => rfl
    | [a] => rfl
    | a :: b :: rest => simp at hlt; omega
  · intro b₀ b₁ rest hs hd hl hrow hentry
    subst hs
    set m := rest.prod with hm
    have hslice : ∀ b i, b < b₀ → i < b₁ →
        (sliceRow data ((b * b₁ + i) * m) m).length = m := by
      intro b i hb hi
      apply sliceRow_length
      have h1 : (b + 1) * b₁ ≤ b₀ * b₁ := Nat.mul_le_mul_right _ hb
      have h2 : (b + 1) * b₁ = b * b₁ + b₁ := by ring
      have h3 : b * b₁ + i + 1 ≤ b₀ * b₁ := by omega
      calc (b * b₁ + i) * m + m = (b * b₁ + i + 1) * m := by ring
        _ ≤ (b₀ * b₁) * m := Nat.mul_le_mul_right m h3
        _ = b₀ * (b₁ * m) := by ring
        _ = data.length := hd.symm
    have hrowmem : ∀ b, b < b₀ → hyp.getD b [] ∈ hyp := by
      intro b hb
      exact getD_mem_of_lt _ _ _ (by omega)
    have hchunk : ∀ b, b < b₀ →
        ((hyp.getD b []).flatMap
          (fun i => sliceRow data ((b * b₁ + i) * m) m)).length = b₁ * m := by
      intro b hb
      rw [flatMap_uniform_length _ _ m
        (fun i hi => hslice b i hb (hentry _ (hrowmem b hb) i hi))]
      rw [hrow _ (hrowmem b hb)]
    refine ⟨rfl, ?_⟩
    intro b j r hb hj hr
    show ((List.range b₀).flatMap fun b =>
        (hyp.getD b []).flatMap fun i =>
          sliceRow data ((b * b₁ + i) * m) m).getD _ 0 = _
    have hidx : (b * b₁ + j) * m + r = b * (b₁ * m) + (j * m + r) := by ring
    have hjr : j * m + r < b₁ * m := by
      have h1 : (j + 1) * m ≤ b₁ * m := Nat.mul_le_mul_right m hj
      have h2 : (j + 1) * m = j * m + m := by ring
      omega
    rw [hidx, flatMap_uniform_getD (List.range b₀) _ (b₁ * m)
      (fun a ha => hchunk a (by
        rcases List.mem_range.mp ha with h
        exact h)) b (j * m + r) (by simpa using hb) hjr 0]
    rw [List.get_eq_getElem, List.getElem_range]
    have hrowlen : (hyp.getD b []).length = b₁ := hrow _ (hrowmem b hb)
    have hj' : j < (hyp.getD b []).length := by omega
    rw [flatMap_uniform_getD (hyp.getD b []) _ m
      (fun i hi => hslice b i hb (hentry _ (hrowmem b hb) i hi))
      j r hj' hr 0]
    have hget : (hyp.getD b []).get ⟨j, hj'⟩ = (hyp.getD b []).getD j 0 := by
      rw [List.getD_eq_getElem _ _ hj']
      rfl
    rw [hget, sliceRow_getD]
    exact hr

/-- Witness for C7 on a concrete rank-2 tensor with shape [2, 2] and a
concrete reordering, together with a concrete rank-1 tensor left
unchanged. -/
theorem shuffle_state_rank_spec_witness :
    (shuffle_state (JT.mk [4] ([1, 2, 3, 4] : List ℚ)) [[1, 0], [0, 1]]
        = JT.mk [4] ([1, 2, 3, 4] : List ℚ)) ∧
    (shuffle_state (JT.mk [2, 2] ([1, 2, 3, 4] : List ℚ))
        [[1, 0], [0, 1]]).shape = [2, 2] ∧
    (shuffle_state (JT.mk [2, 2]
      ([1, 2, 3, 4] : List ℚ)) [[1, 0], [0, 1]]).data.getD
        ((0 * 2 + 0) * List.prod [] + 0) 0
      = ([1, 2, 3, 4] : List ℚ).getD
          ((0 * 2 + (([[1, 0], [0, 1]] : List (List Nat)).getD 0 []).getD 0 0)
            * List.prod [] + 0) 0 := by
  refine ⟨(shuffle_state_rank_spec (JT.mk [4] ([1, 2, 3, 4] : List ℚ))
    [[1, 0], [0, 1]]).1 (by decide), ?_, ?_⟩
  · exact ((shuffle_state_rank_spec (JT.mk [2, 2] ([1, 2, 3, 4] : List ℚ))
      [[1, 0], [0, 1]]).2 2 2 [] rfl (by decide) rfl (by decide)
      (by decide)).1
  · exact ((shuffle_state_rank_spec (JT.mk [2, 2] ([1, 2, 3, 4] : List ℚ))
      [[1, 0], [0, 1]]).2 2 2 [] rfl (by decide) rfl (by decide)
      (by decide)).2 0 0 0 (by decide) (by decide) (by decide)

/-! ### beam_search (beam_search.py, lines 82-259) -/

/-- Model of a float-to-int32 astype: truncation toward zero. -/
def truncToInt (q : ℚ) : Int := q.num / (q.den : Int)

/-- Read a token row at an int32 position (output_ids[:, :, step]).  The
decode loop only reads nonnegative in-range positions. -/
def jaxGet (row : List Int) (i : ℤ) : Int :=
  if 0 ≤ i then row.getD i.toNat 0 else 0

/-- Functional index update at an int32 position (the .at[...].set jax
idiom); out-of-range updates are dropped, matching jax, and the decode
loop only writes nonnegative in-range positions. -/
def jaxSet {α : Type} (row : List α) (i : ℤ) (v : α) : List α :=
  if 0 ≤ i then row.set i.toNat v else row

/-- Embedding of broadcast_beam_dim (beam_search.py, lines 82-94) at its
only call-site configuration beam_dim = 1: expand_dims at axis 1 followed
by repeat, turning [batch, ...] into [batch, beam_size, ...]. -/
def broadcast_beam_dim {α : Type} (x : List α) (beam_size : Nat) :
    List (List α) :=
  x.map (List.replicate beam_size)

/-- Model of jnp.reshape(l, (n, m)) on the leading axis of a row list:
n groups of m consecutive entries. -/
def reshapeRows {α : Type} (n m : Nat) (l : List α) : List (List α) :=
  (List.range n).map (fun i => (l.drop (i * m)).take m)

/-- Model of jnp.repeat(x, repeats, axis) on a flattened tensor (the
_broadcast_state_fn closure in beam_search, lines 146-149). -/
def repeat_axis {α : Type} (x : JT α) (reps axis : Nat) : JT α :=
  let n := x.shape.getD axis 1
  let outer := (x.shape.take axis).prod
  let inner := (x.shape.drop (axis + 1)).prod
  ⟨x.shape.set axis (n * reps),
    (List.range outer).flatMap (fun o =>
      (List.range n).flatMap (fun i =>
        (List.range reps).flatMap (fun _ =>
          sliceRow x.data ((o * n + i) * inner) inner)))⟩

/-- The _broadcast_state_fn closure: repeat beam_size times along the
batch axis, ignoring the time axis. -/
def broadcast_state_fn {α : Type} (beam_size : Nat) (x : JT α)
    (batch_dim _time_dim : Nat) : JT α :=
  repeat_axis x beam_size batch_dim

/-- The _shuffle_state_fn closure (beam_search.py, lines 217-224):
reshape so the batch axis splits into [batch, beam_size], shuffle at the
beam dimension with shuffle_state, and reshape back.  On the flattened
representation a reshape only changes the shape list. -/
def shuffle_state_transform {α : Type} (beam_size : Nat)
    (hyp_id : List (List Nat)) (x : JT α) (batch_dim _time_dim : Nat) :
    JT α :=
  let x_shape := x.shape
  let new_shape :=
    (x_shape.set batch_dim ((x_shape.getD batch_dim 0) / beam_size)).insertIdx
      (batch_dim + 1) beam_size
  let new_state := shuffle_state ⟨new_shape, x.data⟩ hyp_id
  ⟨x_shape, new_state.data⟩

/-- shuffle_state applied to the rank-3 output_ids tensor in nested-list
representation: per batch element b, jnp.take(x[b], hyp_id[b], axis=0). -/
def shuffle_output_ids (x : List (List (List Int)))
    (hyp_id : List (List Nat)) : List (List (List Int)) :=
  List.zipWith (fun ex ids => ids.map (fun i => ex.getD i [])) x hyp_id

/-- val.output_ids.at[:, :, step + 1].set(new_ids). -/
def set_output_col (x : List (List (List Int))) (pos : ℤ)
    (vals : List (List Int)) : List (List (List Int)) :=
  List.zipWith (fun ex vrow =>
    List.zipWith (fun row v => jaxSet row pos v) ex vrow) x vals

/-- Batched update_topk_scores_with_eos: the source version carries a
free batch index b through every concatenate/top_k/one_hot/einsum, so the
batched operation is an independent map over batch elements.  Fields are
(ids, decode_lengths, scores, scores_norm) as in the loop. -/
def update_topk_scores_with_eos_batched
    (eids : List (List (List Int))) (elen : List (List Int))
    (esc : List (List ℚ)) (enorm : List (List ℚ))
    (cids : List (List (List Int))) (clen : List (List Int))
    (csc : List (List ℚ)) (cnorm : List (List ℚ)) :
    List (List (List Int)) × List (List Int) × List (List ℚ) ×
      List (List ℚ) :=
  let per := fun b => update_topk_scores_with_eos
    ⟨eids.getD b [], elen.getD b [], esc.getD b [], enorm.getD b []⟩
    ⟨cids.getD b [], clen.getD b [], csc.getD b [], cnorm.getD b []⟩
  ((List.range eids.length).map (fun b => (per b).ids),
   (List.range eids.length).map (fun b => (per b).lengths),
   (List.range eids.length).map (fun b => (per b).scores),
   (List.range eids.length).map (fun b => (per b).scores_norm))

/-- BeamSearchHParams fields used by beam_search (decoder_hparams is not
part of the sources; fields and their roles are as consumed by
beam_search.py).  max_decode_steps is optional because the source asserts
its presence at call time. -/
structure BeamSearchHParams where
  beam_size : Nat
  max_decode_steps : Option Nat
  eos_id : Nat
  length_norm_alpha : ℚ

/-- The functional capabilities beam_search consumes.  extend_step_fn,
fprop_fn and transform_state_fn are the model capabilities; the remaining
fields model the external collaborator modules (decoder_utils.length_norm,
decoder_utils.two_stage_topk, decoder_utils.gather_output_id,
decoder_utils.pad_state_fn, sample_decode.left_align_output_sequence and
jax.nn.log_softmax) that are imported by beam_search.py but whose sources
are outside this repository snapshot; they are kept as opaque function
parameters. -/
structure ModelFns (σ : Type) where
  extend_step_fn : σ → List Int → List (List Int) → σ × List (List ℚ)
  fprop_fn : σ → List (List Int) → List (List ℚ) → σ
  transform_state_fn : σ → (JT ℚ → Nat → Nat → JT ℚ) → σ
  pad_state_fn : Nat → JT ℚ → Nat → Nat → JT ℚ
  length_norm : ℤ → ℚ → ℚ
  two_stage_topk : List (List (List ℚ)) → List (List ℚ) → Nat →
    (List (List ℚ) × List (List Int) × List (List ℚ) × List (List Int))
  gather_output_id : List (List Int) → List (List Int) → List (List Int)
  left_align_output_sequence : List (List Int) → List Int → Nat →
    List (List Int)
  log_softmax : List ℚ → List ℚ

/-- The loop-carried value val of the decode while loop. -/
structure Val where
  output_ids : List (List (List Int))
  end_scores : List (List ℚ)
  end_scores_norm : List (List ℚ)
  hyp_scores : List (List ℚ)
  end_ids : List (List (List Int))
  step : ℤ
  segment_pos : List (List Int)
  end_decode_lengths : List (List Int)

/-- Values captured by the loop closures (cond_func and loop_body close
over these Python locals of beam_search). -/
structure LoopCtx (σ : Type) where
  F : ModelFns σ
  batch_size : Nat
  beam_size : Nat
  max_prefix_len : Nat
  seq_len : Nat
  eos_id : Nat
  alpha : ℚ
  prefix_lengths_bb : List (List Int)

/-- cond_func (beam_search.py, lines 180-183): continue while
val.step < seq_len - 1 (the model argument is unused). -/
def cond_func {σ : Type} (ctx : LoopCtx σ) (v : Val) : Bool :=
  v.step < (ctx.seq_len : ℤ) - 1

/-- Line 188: the decoded token at the current step for every
(example, beam), flattened with jnp.reshape(..., (-1)). -/
def decode_last_ids (v : Val) : List Int :=
  v.output_ids.flatMap (fun ex => ex.map (fun row => jaxGet row v.step))

/-- Lines 188-189: extend_step_fn on the flattened current tokens and
segment positions, threading the decode-cache state explicitly. -/
def decode_extend {σ : Type} (ctx : LoopCtx σ) (s : σ × Val) :
    σ × List (List ℚ) :=
  ctx.F.extend_step_fn s.1 (decode_last_ids s.2) s.2.segment_pos

/-- Lines 190-193: reshape the logits to [batch, beam, vocab] and apply
log_softmax along the vocabulary axis. -/
def decode_logprobs {σ : Type} (ctx : LoopCtx σ) (s : σ × Val) :
    List (List (List ℚ)) :=
  (reshapeRows ctx.batch_size ctx.beam_size (decode_extend ctx s).2).map
    (fun ex => ex.map ctx.F.log_softmax)

/-- Line 195: eos_scores = val.hyp_scores + logprobs[:, :, eos_id]. -/
def decode_eos_scores {σ : Type} (ctx : LoopCtx σ) (s : σ × Val) :
    List (List ℚ) :=
  List.zipWith (List.zipWith (· + ·)) s.2.hyp_scores
    ((decode_logprobs ctx s).map (fun ex => ex.map (fun row =>
      row.getD ctx.eos_id 0)))

/-- Lines 196-197: the candidate ids if terminated now, i.e. output_ids
with eos written at step + 1. -/
def decode_new_end_ids {σ : Type} (ctx : LoopCtx σ) (s : σ × Val) :
    List (List (List Int)) :=
  s.2.output_ids.map (fun ex =>
    ex.map (fun row => jaxSet row (s.2.step + 1) (ctx.eos_id : Int)))

/-- Lines 198-199: decode_length = step + 2 broadcast to [batch, beam]. -/
def decode_new_decode_lengths {σ : Type} (ctx : LoopCtx σ) (s : σ × Val) :
    List (List Int) :=
  ctx.prefix_lengths_bb.map (fun ex => ex.map (fun _ => s.2.step + 2))

/-- Lines 200-201: eos_scores normalized by
length_norm(decode_length - max_prefix_len, length_norm_alpha). -/
def decode_eos_scores_norm {σ : Type} (ctx : LoopCtx σ) (s : σ × Val) :
    List (List ℚ) :=
  (decode_eos_scores ctx s).map (fun ex => ex.map (fun q =>
    q / ctx.F.length_norm ((s.2.step + 2) - (ctx.max_prefix_len : ℤ))
      ctx.alpha))

/-- loop_body (beam_search.py, lines 185-238): one decode step.  From the
ids at step, compute logits and log-probabilities, merge the would-be-eos
candidates into the completed set, pick the two-stage top-k survivors,
reshuffle cache state and output ids by hyp_id, write the chosen tokens at
step + 1, and advance step and segment_pos. -/
def loop_body {σ : Type} (ctx : LoopCtx σ) (s : σ × Val) : σ × Val :=
  let val := s.2
  let step := val.step
  let es := decode_extend ctx s
  let logprobs := decode_logprobs ctx s
  let updated := update_topk_scores_with_eos_batched
    val.end_ids val.end_decode_lengths val.end_scores val.end_scores_norm
    (decode_new_end_ids ctx s) (decode_new_decode_lengths ctx s)
    val.hyp_scores (decode_eos_scores_norm ctx s)
  let tst := ctx.F.two_stage_topk logprobs val.hyp_scores ctx.eos_id
  let topk_indices := tst.2.1
  let final_topk_value := tst.2.2.1
  let final_topk_indices := tst.2.2.2
  let hyp_id := final_topk_indices.map (fun ex =>
    ex.map (fun i => i / (ctx.beam_size : Int)))
  let hyp_id_nat := hyp_id.map (fun ex => ex.map Int.toNat)
  let model := ctx.F.transform_state_fn es.1
    (fun x bd td => shuffle_state_transform ctx.beam_size hyp_id_nat x bd td)
  let new_ids := ctx.F.gather_output_id topk_indices final_topk_indices
  let shuffled := shuffle_output_ids val.output_ids hyp_id_nat
  let output_ids := set_output_col shuffled (step + 1) new_ids
  (model,
    { output_ids := output_ids
      end_scores := updated.2.2.1
      end_scores_norm := updated.2.2.2
      hyp_scores := final_topk_value
      end_ids := updated.1
      step := step + 1
      segment_pos := val.segment_pos.map (fun row => row.map (fun p => p + 1))
      end_decode_lengths := updated.2.1 })

/-- The nn.while_loop of beam_search (lines 241-246): run loop_body while
cond_func holds. -/
def run_loop {σ : Type} (ctx : LoopCtx σ) (s : σ × Val) : σ × Val :=
  if cond_func ctx s.2 then run_loop ctx (loop_body ctx s) else s
termination_by (((ctx.seq_len : ℤ) - 1) - s.2.step).toNat
decreasing_by
  rename_i h
  simp only [cond_func, decide_eq_true_eq] at h
  have hstep : (loop_body ctx s).2.step = s.2.step + 1 := rfl
  rw [hstep]
  omega

/-- Initial completed-set scores: zeros minus 1e9 (lines 156-158). -/
def init_end_scores (batch beam : Nat) : List (List ℚ) :=
  List.replicate batch (List.replicate beam (-(10 ^ 9 : ℚ)))

/-- Initial hypothesis scores: beam index i is penalized by i * 1e9 so
only beam 0 is live (lines 159-161). -/
def init_hyp_scores (batch beam : Nat) : List (List ℚ) :=
  List.replicate batch ((List.range beam).map (fun i => 0 - (i : ℚ) * 10 ^ 9))

/-- The structured decode result (NestedMap fields of the return value). -/
structure DecodeOutput where
  output_ids : List (List (List Int))
  scores : List (List ℚ)
  logprobs : List (List ℚ)
  decode_lengths : List (List Int)

/-- Embedding of beam_search (lines 97-259).  The assert on
max_decode_steps is modelled as the error branch; everything after it
mirrors the source: fprop over the prefix, pad and broadcast the cache
state, initialize the loop value from the prefix, run the while loop, and
left-align the completed ids for the output. -/
def beam_search {σ : Type} (F : ModelFns σ) (model : σ)
    (target_prefix_ids : List (List Int))
    (target_prefix_paddings : List (List ℚ))
    (hp : BeamSearchHParams) : Except String DecodeOutput :=
  match hp.max_decode_steps with
  | none => .error "assert failed: max_decode_steps is None"
  | some max_decode_steps =>
    let beam_size := hp.beam_size
    let batch_size := target_prefix_ids.length
    let max_prefix_len := (target_prefix_ids.headD []).length
    let eos_id := hp.eos_id
    let seq_len := max_decode_steps + max_prefix_len
    let model := F.fprop_fn model target_prefix_ids target_prefix_paddings
    let model := F.transform_state_fn model (F.pad_state_fn max_decode_steps)
    let model := F.transform_state_fn model
      (fun x bd td => broadcast_state_fn beam_size x bd td)
    let prefix_lengths := target_prefix_paddings.map (fun row =>
      (row.map (fun q => 1 - truncToInt q)).sum)
    let prefix_lengths_bb := broadcast_beam_dim prefix_lengths beam_size
    let target_ids_bb := broadcast_beam_dim target_prefix_ids beam_size
    let output_ids0 := target_ids_bb.map (fun ex => ex.map (fun row =>
      row ++ List.replicate (seq_len - max_prefix_len) (0 : Int)))
    let val : Val :=
      { output_ids := output_ids0
        end_scores := init_end_scores batch_size beam_size
        end_scores_norm := init_end_scores batch_size beam_size
        hyp_scores := init_hyp_scores batch_size beam_size
        end_ids := output_ids0
        step := (max_prefix_len : ℤ) - 1
        segment_pos := prefix_lengths_bb.flatten.map (fun l => [l - 1])
        end_decode_lengths := prefix_lengths_bb.map (fun ex =>
          ex.map (fun _ => (seq_len : Int))) }
    let ctx : LoopCtx σ :=
      ⟨F, batch_size, beam_size, max_prefix_len, seq_len, eos_id,
        hp.length_norm_alpha, prefix_lengths_bb⟩
    let res := run_loop ctx (model, val)
    let rv := res.2
    let aligned := F.left_align_output_sequence rv.end_ids.flatten
      prefix_lengths_bb.flatten max_prefix_len
    let out_ids := reshapeRows batch_size beam_size aligned
    .ok { output_ids := out_ids
          scores := rv.end_scores_norm
          logprobs := rv.end_scores_norm
          decode_lengths := rv.end_decode_lengths }

/-! ### C2: loop termination and step bookkeeping -/

theorem loop_body_step_succ {σ : Type} (ctx : LoopCtx σ) (s : σ × Val) :
    (loop_body ctx s).2.step = s.2.step + 1 := rfl

theorem run_loop_eq_iterate {σ : Type} (ctx : LoopCtx σ) (j : Nat) :
    ∀ t : σ × Val, t.2.step = (ctx.seq_len : ℤ) - 1 - j →
      run_loop ctx t = (loop_body ctx)^[j] t := by
  induction j with
  | zero =>
    intro t ht
    rw [run_loop]
    have hcond : cond_func ctx t.2 = false := by
      simp only [cond_func, decide_eq_false_iff_not, not_lt]
      omega
    rw [hcond]
    simp
  | succ j ih =>
    intro t ht
    rw [run_loop]
    have hcond : cond_func ctx t.2 = true := by
      simp only [cond_func, decide_eq_true_eq]
      omega
    rw [hcond]
    simp only [if_true]
    rw [ih (loop_body ctx t) (by rw [loop_body_step_succ]; omega)]
    rw [← Function.iterate_succ_apply]

/-- C2: with max_decode_steps >= 1 and prefix length >= 1 the decode loop
terminates after exactly max_decode_steps iterations of loop_body: the
step counter starts at max_prefix_len - 1, increases by exactly 1 per
iteration, the final iteration is entered with step = seq_len - 2 (still
satisfying cond_func) and leaves step = seq_len - 1 = max_decode_steps +
prefix_length - 1, where cond_func turns false. -/
theorem beam_search_loop_terminates {σ : Type} (ctx : LoopCtx σ)
    (mds p : Nat) (hmds : 1 ≤ mds) (_hple : 1 ≤ p)
    (hseq : ctx.seq_len = mds + p)
    (s : σ × Val) (hstep : s.2.step = (p : ℤ) - 1) :
    (∀ i : Nat, ((loop_body ctx)^[i] s).2.step = (p : ℤ) - 1 + i) ∧
    run_loop ctx s = (loop_body ctx)^[mds] s ∧
    ((loop_body ctx)^[mds] s).2.step = (ctx.seq_len : ℤ) - 1 ∧
    ((loop_body ctx)^[mds - 1] s).2.step = (ctx.seq_len : ℤ) - 2 ∧
    cond_func ctx ((loop_body ctx)^[mds - 1] s).2 = true ∧
    cond_func ctx ((loop_body ctx)^[mds] s).2 = false := by
  have hiter : ∀ i : Nat, ((loop_body ctx)^[i] s).2.step = (p : ℤ) - 1 + i := by
    intro i
    induction i with
    | zero => simpa using hstep
    | succ i ih =>
      rw [Function.iterate_succ_apply', loop_body_step_succ, ih]
      push_cast
      ring
  refine ⟨hiter, ?_, ?_, ?_, ?_, ?_⟩
  · exact run_loop_eq_iterate ctx mds s (by rw [hstep, hseq]; push_cast; omega)
  · rw [hiter mds, hseq]; push_cast; ring
  · rw [hiter (mds - 1), hseq]
    have : ((mds - 1 : Nat) : ℤ) = (mds : ℤ) - 1 := by omega
    rw [this]
    push_cast
    ring
  · simp only [cond_func, decide_eq_true_eq, hiter (mds - 1), hseq]
    have : ((mds - 1 : Nat) : ℤ) = (mds : ℤ) - 1 := by omega
    rw [this]
    push_cast
    omega
  · simp only [cond_func, decide_eq_false_iff_not, not_lt, hiter mds, hseq]
    push_cast
    omega

/-- A trivial concrete model-capability record over a unit cache state,
used to instantiate the beam-search theorems on concrete inputs. -/
def trivialFns : ModelFns Unit :=
  { extend_step_fn := fun m _ _ => (m, [[0]])
    fprop_fn := fun m _ _ => m
    transform_state_fn := fun m _ => m
    pad_state_fn := fun _ x _ _ => x
    length_norm := fun _ _ => 1
    two_stage_topk := fun _ hs _ => (hs, [[0]], hs, [[0]])
    gather_output_id := fun a _ => a
    left_align_output_sequence := fun rows _ _ => rows
    log_softmax := fun r => r }

/-- A concrete loop context: batch 1, beam 1, prefix length 1, one decode
step (seq_len 2). -/
def smallCtx : LoopCtx Unit :=
  ⟨trivialFns, 1, 1, 1, 2, 0, 0, [[1]]⟩

/-- A concrete initial loop value matching smallCtx with step =
prefix_length - 1 = 0. -/
def smallVal : Val :=
  { output_ids := [[[1, 0]]]
    end_scores := init_end_scores 1 1
    end_scores_norm := init_end_scores 1 1
    hyp_scores := init_hyp_scores 1 1
    end_ids := [[[1, 0]]]
    step := 0
    segment_pos := [[0]]
    end_decode_lengths := [[2]] }

/-- Witness for C2 at the concrete context: max_decode_steps = 1, prefix
length 1. -/
theorem beam_search_loop_terminates_witness :
    (∀ i : Nat,
      ((loop_body smallCtx)^[i] ((), smallVal)).2.step = (1 : ℤ) - 1 + i) ∧
    run_loop smallCtx ((), smallVal)
      = (loop_body smallCtx)^[1] ((), smallVal) ∧
    ((loop_body smallCtx)^[1] ((), smallVal)).2.step
      = (smallCtx.seq_len : ℤ) - 1 ∧
    ((loop_body smallCtx)^[1 - 1] ((), smallVal)).2.step
      = (smallCtx.seq_len : ℤ) - 2 ∧
    cond_func smallCtx ((loop_body smallCtx)^[1 - 1] ((), smallVal)).2
      = true ∧
    cond_func smallCtx ((loop_body smallCtx)^[1] ((), smallVal)).2
      = false :=
  beam_search_loop_terminates smallCtx 1 1 (by decide) (by decide) rfl
    ((), smallVal) rfl

/-! ### C3: the completed set's normalized scores stay sorted -/

theorem update_topk_norm_sorted (e c : DecodeInfo) :
    (update_topk_scores_with_eos e c).scores_norm.Sorted (· ≥ ·) := by
  show ((((e.scores_norm ++ c.scores_norm).enum.mergeSort
    topkLe).take e.ids.length).map Prod.snd).Sorted (· ≥ ·)
  have hpw := List.sorted_mergeSort topkLe_trans topkLe_total
    (e.scores_norm ++ c.scores_norm).enum
  have hpwt := hpw.sublist (List.take_sublist e.ids.length _)
  rw [List.Sorted, List.pairwise_map]
  refine hpwt.imp ?_
  intro a b hle
  simp only [topkLe, Bool.or_eq_true, decide_eq_true_eq, Bool.and_eq_true,
    beq_iff_eq] at hle
  rcases hle with h | ⟨he, _⟩
  · exact le_of_lt h
  · exact le_of_eq he.symm

theorem loop_body_norm_row_mem {σ : Type} (ctx : LoopCtx σ) (s : σ × Val)
    (row : List ℚ) (h : row ∈ (loop_body ctx s).2.end_scores_norm) :
    ∃ e c, row = (update_topk_scores_with_eos e c).scores_norm := by
  simp only [loop_body, update_topk_scores_with_eos_batched,
    List.mem_map] at h
  rcases h with ⟨b, _, hb⟩
  exact ⟨_, _, hb.symm⟩

/-- C3: the completed set's length-normalized scores are non-increasing
along the beam rank dimension for every example: the -1e9 initialization
rows are sorted, and every iteration of loop_body leaves every row of
end_scores_norm sorted (the top_k inside update_topk_scores_with_eos
returns its values in descending order). -/
theorem end_scores_norm_sorted_invariant :
    (∀ batch beam : Nat, ∀ row ∈ init_end_scores batch beam,
      row.Sorted (· ≥ ·)) ∧
    (∀ (σ : Type) (ctx : LoopCtx σ) (n : Nat) (s : σ × Val),
      (∀ row ∈ s.2.end_scores_norm, row.Sorted (· ≥ ·)) →
      ∀ row ∈ ((loop_body ctx)^[n] s).2.end_scores_norm,
        row.Sorted (· ≥ ·)) := by
  constructor
  · intro batch beam row hrow
    rcases List.eq_of_mem_replicate hrow with rfl
    rw [List.Sorted, List.pairwise_replicate]
    right
    exact le_refl _
  · intro σ ctx n
    induction n with
    | zero => intro s hs row hrow; exact hs row hrow
    | succ n ih =>
      intro s hs row hrow
      rw [Function.iterate_succ_apply'] at hrow
      rcases loop_body_norm_row_mem ctx _ row hrow with ⟨e, c, rfl⟩
      exact update_topk_norm_sorted e c

/-- Witness for C3 at a concrete batch/beam size and one loop iteration
over the concrete small context. -/
theorem end_scores_norm_sorted_invariant_witness :
    (∀ row ∈ init_end_scores 2 3, row.Sorted (· ≥ ·)) ∧
    (∀ row ∈ ((loop_body smallCtx)^[1] ((), smallVal)).2.end_scores_norm,
      row.Sorted (· ≥ ·)) :=
  ⟨fun row hrow =>
    end_scores_norm_sorted_invariant.1 2 3 row hrow,
   fun row hrow =>
    end_scores_norm_sorted_invariant.2 Unit smallCtx 1 ((), smallVal)
      (by
        intro r hr
        simp only [smallVal, init_end_scores] at hr
        rcases List.eq_of_mem_replicate hr with rfl
        rw [List.Sorted, List.pairwise_replicate]
        right
        exact le_refl _) row hrow⟩

/-! ### C8: the candidate completion score formula -/

theorem reshapeRows_length {α : Type} (n m : Nat) (l : List α) :
    (reshapeRows n m l).length = n := by
  simp [reshapeRows]

theorem reshapeRows_getD {α : Type} (n m b : Nat) (l : List α)
    (hb : b < n) :
    (reshapeRows n m l).getD b [] = (l.drop (b * m)).take m :=
  getD_range_map _ _ _ _ hb

/-- C8: at every decode step, the completed-set merge performed by
loop_body receives exactly the candidates scored by
(hyp_scores + logprobs[eos_id]) / length_norm(decode_length -
max_prefix_len, alpha) with decode_length = step + 2: the end fields of
the next loop value are the batched top-k merge of the previous completed
set with those candidates, and the candidate normalized score at every
(example, beam) equals the formula. -/
theorem loop_body_eos_merge {σ : Type} (ctx : LoopCtx σ) (s : σ × Val)
    (b i : Nat) (hb : b < ctx.batch_size) (hbh : b < s.2.hyp_scores.length)
    (hih : i < (s.2.hyp_scores.getD b []).length)
    (hlen : (decode_extend ctx s).2.length
      = ctx.batch_size * ctx.beam_size)
    (hibeam : i < ctx.beam_size) :
    ((loop_body ctx s).2.end_ids, (loop_body ctx s).2.end_decode_lengths,
     (loop_body ctx s).2.end_scores, (loop_body ctx s).2.end_scores_norm)
      = update_topk_scores_with_eos_batched s.2.end_ids
          s.2.end_decode_lengths s.2.end_scores s.2.end_scores_norm
          (decode_new_end_ids ctx s) (decode_new_decode_lengths ctx s)
          s.2.hyp_scores (decode_eos_scores_norm ctx s) ∧
    ((decode_eos_scores_norm ctx s).getD b []).getD i 0
      = ((s.2.hyp_scores.getD b []).getD i 0
          + (((decode_logprobs ctx s).getD b []).getD i []).getD
              ctx.eos_id 0)
        / ctx.F.length_norm ((s.2.step + 2) - (ctx.max_prefix_len : ℤ))
            ctx.alpha := by
  refine ⟨rfl, ?_⟩
  have hlpl : (decode_logprobs ctx s).length = ctx.batch_size := by
    rw [decode_logprobs, List.length_map, reshapeRows_length]
  have hlprow : ((decode_logprobs ctx s).getD b []).length
      = ctx.beam_size := by
    rw [decode_logprobs,
      getD_map_lt _ _ b [] [] (by rw [reshapeRows_length]; exact hb),
      List.length_map, reshapeRows_getD _ _ _ _ hb,
      List.length_take, List.length_drop, hlen]
    have h1 : (b + 1) * ctx.beam_size ≤ ctx.batch_size * ctx.beam_size :=
      Nat.mul_le_mul_right _ hb
    have h2 : (b + 1) * ctx.beam_size = b * ctx.beam_size + ctx.beam_size :=
      by ring
    omega
  have heoslpl : ((decode_logprobs ctx s).map (fun ex => ex.map (fun row =>
      row.getD ctx.eos_id (0 : ℚ)))).length = ctx.batch_size := by
    rw [List.length_map, hlpl]
  have hesl : (decode_eos_scores ctx s).length
      = min s.2.hyp_scores.length ctx.batch_size := by
    rw [decode_eos_scores, List.length_zipWith, heoslpl]
  rw [decode_eos_scores_norm,
    getD_map_lt _ _ b [] [] (by rw [hesl]; omega)]
  have heosrow : (decode_eos_scores ctx s).getD b []
      = List.zipWith (· + ·) (s.2.hyp_scores.getD b [])
          (((decode_logprobs ctx s).getD b []).map (fun row =>
            row.getD ctx.eos_id 0)) := by
    rw [decode_eos_scores,
      getD_zipWith _ _ _ b [] [] [] hbh (by rw [heoslpl]; exact hb),
      getD_map_lt _ _ b [] [] (by rw [hlpl]; exact hb)]
  rw [heosrow]
  have hlrowlen : (((decode_logprobs ctx s).getD b []).map (fun row =>
      row.getD ctx.eos_id (0 : ℚ))).length = ctx.beam_size := by
    rw [List.length_map, hlprow]
  rw [getD_map_lt _ _ i 0 0 (by
    rw [List.length_zipWith, hlrowlen]
    omega)]
  rw [getD_zipWith _ _ _ i 0 0 0 hih (by rw [hlrowlen]; exact hibeam)]
  rw [getD_map_lt _ _ i [] 0 (by rw [hlprow]; exact hibeam)]

/-- Witness for C8 at the concrete small context (batch 1, beam 1,
example 0, beam 0). -/
theorem loop_body_eos_merge_witness :
    (((loop_body smallCtx ((), smallVal)).2.end_ids,
      (loop_body smallCtx ((), smallVal)).2.end_decode_lengths,
      (loop_body smallCtx ((), smallVal)).2.end_scores,
      (loop_body smallCtx ((), smallVal)).2.end_scores_norm)
        = update_topk_scores_with_eos_batched smallVal.end_ids
            smallVal.end_decode_lengths smallVal.end_scores
            smallVal.end_scores_norm
            (decode_new_end_ids smallCtx ((), smallVal))
            (decode_new_decode_lengths smallCtx ((), smallVal))
            smallVal.hyp_scores
            (decode_eos_scores_norm smallCtx ((), smallVal))) ∧
    ((decode_eos_scores_norm smallCtx ((), smallVal)).getD 0 []).getD 0 0
      = ((smallVal.hyp_scores.getD 0 []).getD 0 0
          + (((decode_logprobs smallCtx ((), smallVal)).getD 0 []).getD 0
              []).getD smallCtx.eos_id 0)
        / smallCtx.F.length_norm ((smallVal.step + 2)
            - (smallCtx.max_prefix_len : ℤ)) smallCtx.alpha :=
  loop_body_eos_merge smallCtx ((), smallVal) 0 0 (by decide) (by decide)
    (by decide) (by decide) (by decide)

/-! ### C9: determinism of beam_search -/

/-- C9: beam_search is a pure function of its inputs: two calls with the
same cache state, prefix ids, paddings and hyperparameters, whose model
capabilities (extend_step/fprop/transform_state) and external utility
functions agree pointwise, return identical outputs.  The decoder itself
consumes no randomness. -/
theorem beam_search_deterministic {σ : Type} (F₁ F₂ : ModelFns σ)
    (model : σ) (target_prefix_ids : List (List Int))
    (target_prefix_paddings : List (List ℚ)) (hp : BeamSearchHParams)
    (h₁ : ∀ m a b, F₁.extend_step_fn m a b = F₂.extend_step_fn m a b)
    (h₂ : ∀ m a b, F₁.fprop_fn m a b = F₂.fprop_fn m a b)
    (h₃ : ∀ m f, F₁.transform_state_fn m f = F₂.transform_state_fn m f)
    (h₄ : ∀ n x a b, F₁.pad_state_fn n x a b = F₂.pad_state_fn n x a b)
    (h₅ : ∀ l a, F₁.length_norm l a = F₂.length_norm l a)
    (h₆ : ∀ lp hs e, F₁.two_stage_topk lp hs e = F₂.two_stage_topk lp hs e)
    (h₇ : ∀ a b, F₁.gather_output_id a b = F₂.gather_output_id a b)
    (h₈ : ∀ r p n, F₁.left_align_output_sequence r p n
      = F₂.left_align_output_sequence r p n)
    (h₉ : ∀ r, F₁.log_softmax r = F₂.log_softmax r) :
    beam_search F₁ model target_prefix_ids target_prefix_paddings hp
      = beam_search F₂ model target_prefix_ids target_prefix_paddings hp := by
  have hF : F₁ = F₂ := by
    obtain ⟨e₁, f₁, t₁, p₁, l₁, k₁, g₁, a₁, s₁⟩ := F₁
    obtain ⟨e₂, f₂, t₂, p₂, l₂, k₂, g₂, a₂, s₂⟩ := F₂
    simp only at h₁ h₂ h₃ h₄ h₅ h₆ h₇ h₈ h₉
    congr 1
    · funext m a b; exact h₁ m a b
    · funext m a b; exact h₂ m a b
    · funext m f; exact h₃ m f
    · funext n x a b; exact h₄ n x a b
    · funext l a; exact h₅ l a
    · funext lp hs e; exact h₆ lp hs e
    · funext a b; exact h₇ a b
    · funext r p n; exact h₈ r p n
    · funext r; exact h₉ r
  rw [hF]

/-- Witness for C9 at a concrete call: trivial capabilities over a unit
cache state, prefix [[1, 2]], no padding, beam 2, two decode steps. -/
theorem beam_search_deterministic_witness :
    beam_search trivialFns () [[1, 2]] [[0, 0]] ⟨2, some 2, 0, 1⟩
      = beam_search trivialFns () [[1, 2]] [[0, 0]] ⟨2, some 2, 0, 1⟩ :=
  beam_search_deterministic trivialFns trivialFns () [[1, 2]] [[0, 0]]
    ⟨2, some 2, 0, 1⟩
    (fun _ _ _ => rfl) (fun _ _ _ => rfl) (fun _ _ => rfl)
    (fun _ _ _ _ => rfl) (fun _ _ => rfl) (fun _ _ _ => rfl)
    (fun _ _ => rfl) (fun _ _ _ => rfl) (fun _ => rfl)

/-! ### C4: which precondition violations are rejected before the loop -/

/-- Counterexample to C4 as stated: a call whose prefix-id and padding
shapes mismatch (prefix length 2 versus padding length 3) does not fail:
beam_search runs its only pre-loop check (the assert that
max_decode_steps is present), enters the decode loop and returns
normally. -/
theorem beam_search_shape_mismatch_not_rejected :
    (([[1, 2]] : List (List Int)).headD []).length
        ≠ (([[0, 0, 0]] : List (List ℚ)).headD []).length ∧
    (beam_search trivialFns () [[1, 2]] [[0, 0, 0]]
      ⟨1, some 1, 0, 1⟩).isOk = true :=
  ⟨by decide, rfl⟩

/-- C4 as amended: the only precondition beam_search validates before
loop entry is the presence of max_decode_steps (the assert at line 130);
a call fails before the loop exactly when max_decode_steps is missing,
and neither a non-positive beam_size nor mismatched prefix/padding shapes
are checked by the decoder itself. -/
theorem beam_search_rejects_iff_missing_max_decode_steps {σ : Type}
    (F : ModelFns σ) (model : σ) (target_prefix_ids : List (List Int))
    (target_prefix_paddings : List (List ℚ)) (hp : BeamSearchHParams) :
    (beam_search F model target_prefix_ids target_prefix_paddings
      hp).isOk = false ↔ hp.max_decode_steps = none := by
  obtain ⟨bs, mds, eos, alpha⟩ := hp
  cases mds with
  | none => simp [beam_search, Except.isOk, Except.toBool]
  | some k => simp [beam_search, Except.isOk, Except.toBool]

/-! ### StackingOverTime (layers/linears.py, lines 249-502)

The layer only transforms tensors and every operation is independent per
batch element, so it is embedded per batch element: a sequence is a list
of frames, each frame a list of depth values. -/

/-- StackingOverTime.HParams fields used by _applystack/fprop/unstack. -/
structure StackingHParams where
  left_context : Nat
  right_context : Nat
  stride : Nat
  pad_with_left_frame : Bool
  pad_with_right_frame : Bool

namespace StackingOverTime

/-- window_size (lines 297-307): left_context + 1 + right_context. -/
def window_size (p : StackingHParams) : Nat :=
  p.left_context + p.right_context + 1

/-- Python slicing out[::stride]: every stride-th element starting at 0. -/
def everyNth {α : Type} (s : Nat) : List α → List α
  | [] => []
  | a :: rest => a :: everyNth s (rest.drop (s - 1))
termination_by l => l.length
decreasing_by
  simp only [List.length_drop, List.length_cons]
  omega

/-- Lines 323-342 of _applystack: the padded sequence.  Optionally copy
the first/last frame left_context/right_context times, then zero-pad
(with pad_value) whatever context is still missing on each side. -/
def stackPadded (p : StackingHParams) (pv : ℚ) (d : Nat)
    (x : List (List ℚ)) : List (List ℚ) :=
  let inputs1 := if p.pad_with_left_frame
    then (x.take 1).flatMap (List.replicate p.left_context) ++ x
    else x
  let left_to_pad := if p.pad_with_left_frame then 0 else p.left_context
  let inputs2 := if p.pad_with_right_frame
    then inputs1 ++ (inputs1.drop (inputs1.length - 1)).flatMap
      (List.replicate p.right_context)
    else inputs1
  let right_to_pad := if p.pad_with_right_frame then 0 else p.right_context
  List.replicate left_to_pad (List.replicate d pv) ++ inputs2 ++
    List.replicate right_to_pad (List.replicate d pv)

/-- Lines 344-350 of _applystack: window_size shifted copies of the
padded sequence, each truncated to the original length, concatenated
along the depth axis. -/
def stackOut (p : StackingHParams) (pv : ℚ) (d : Nat)
    (x : List (List ℚ)) : List (List ℚ) :=
  let inputs_max_len := x.length
  let padded := stackPadded p pv d x
  let pieces := (List.range (window_size p)).map (fun i =>
    (padded.drop i).take inputs_max_len)
  pieces.foldr (fun piece acc => List.zipWith (· ++ ·) piece acc)
    (List.replicate inputs_max_len ([] : List ℚ))

/-- _applystack (lines 309-354): window-stack unless both contexts are
zero, then apply striding. -/
def applystack (p : StackingHParams) (pv : ℚ) (d : Nat)
    (x : List (List ℚ)) : List (List ℚ) :=
  if p.left_context = 0 ∧ p.right_context = 0 then everyNth p.stride x
  else everyNth p.stride (stackOut p pv d x)

/-- The outputs component of fprop (lines 356-400); the trivial
configuration (no context, stride 1) returns the input unchanged, and the
padding output is an independent reduction not involved in the
round-trip. -/
def fprop_outputs (p : StackingHParams) (d : Nat) (x : List (List ℚ)) :
    List (List ℚ) :=
  if p.left_context = 0 ∧ p.right_context = 0 ∧ p.stride = 1 then x
  else applystack p 0 d x

/-- unstack (lines 402-502).  Raises ValueError when stride >
window_size; otherwise reshapes every stacked row into window_size
frames and gathers, for each original input position, the window and
in-window frame where that position is stored (positions beyond
right_context inside a stride period live in the next window), plus the
full last window. -/
def unstack (p : StackingHParams) (stacked : List (List ℚ)) :
    Except String (List (List ℚ)) :=
  if p.left_context = 0 ∧ p.right_context = 0 ∧ p.stride = 1 then
    .ok stacked
  else if window_size p < p.stride then
    .error "Can't invert StackingOverTime with stride > window_size"
  else
    let stacked_length := stacked.length
    let frames := stacked.map (fun row =>
      (List.range (window_size p)).map (fun j =>
        (row.drop (j * (row.length / window_size p))).take
          (row.length / window_size p)))
    let main_idx := (List.range ((stacked_length - 1) * p.stride)).map
      (fun t =>
        let md := t % p.stride
        let in_next := if p.right_context < md then 1 else 0
        (t / p.stride + in_next,
         p.left_context + md - p.stride * in_next))
    let last_window_length := p.right_context + 1
    let idx := main_idx ++ (List.range last_window_length).map
      (fun r => (stacked_length - 1, p.left_context + r))
    .ok (idx.map (fun wf => (frames.getD wf.1 []).getD wf.2 []))

/-- C6: unstack rejects with a ValueError, not a crash, exactly when
stride > window_size = left_context + right_context + 1; for every
configuration with stride <= window_size it returns normally on every
stacked input. -/
theorem unstack_raises_iff (p : StackingHParams)
    (stacked : List (List ℚ)) :
    ((unstack p stacked).isOk = false ↔ window_size p < p.stride) ∧
    window_size p = p.left_context + p.right_context + 1 := by
  refine ⟨?_, rfl⟩
  unfold unstack
  split
  · next h =>
    simp only [Except.isOk, Except.toBool, Bool.true_eq_false, false_iff,
      not_lt]
    rcases h with ⟨hl, hr, hs⟩
    simp [window_size, hl, hr, hs]
  · split
    · next h2 =>
      simp only [Except.isOk, Except.toBool, true_iff]
      exact h2
    · next h2 =>
      simp only [Except.isOk, Except.toBool, Bool.true_eq_false,
        false_iff, not_lt]
      omega

theorem everyNth_getD {α : Type} (s : Nat) (hs : 1 ≤ s) (d : α) :
    ∀ (w : Nat) (l : List α), w * s < l.length →
      (everyNth s l).getD w d = l.getD (w * s) d := by
  intro w
  induction w with
  | zero =>
    intro l hl
    cases l with
    | nil => simp at hl
    | cons a rest => simp [everyNth]
  | succ w ih =>
    intro l hl
    cases l with
    | nil => simp at hl
    | cons a rest =>
      simp only [everyNth]
      rw [List.getD_cons_succ]
      have hexp : (w + 1) * s = w * s + s := by ring
      have hlen : w * s < (rest.drop (s - 1)).length := by
        simp only [List.length_drop]
        simp only [List.length_cons] at hl
        omega
      rw [ih (rest.drop (s - 1)) hlen]
      rw [List.getD_eq_getElem?_getD, List.getElem?_drop,
        ← List.getD_eq_getElem?_getD]
      have hidx : (w + 1) * s = (s - 1 + w * s) + 1 := by omega
      rw [hidx, List.getD_cons_succ]

theorem everyNth_bounds {α : Type} (s : Nat) (hs : 1 ≤ s) :
    ∀ (n : Nat) (l : List α), l.length ≤ n → l ≠ [] →
      1 ≤ (everyNth s l).length ∧
      ((everyNth s l).length - 1) * s < l.length ∧
      l.length ≤ (everyNth s l).length * s := by
  intro n
  induction n with
  | zero =>
    intro l h hne
    cases l with
    | nil => exact absurd rfl hne
    | cons a rest => simp at h
  | succ n ih =>
    intro l h hne
    cases l with
    | nil => exact absurd rfl hne
    | cons a rest =>
      have hn : rest.length ≤ n := by
        simp only [List.length_cons] at h
        omega
      simp only [everyNth, List.length_cons]
      by_cases hl' : rest.drop (s - 1) = []
      · have hrl : rest.length ≤ s - 1 := by
          have hcl := congrArg List.length hl'
          simp only [List.length_drop, List.length_nil] at hcl
          omega
        rw [hl']
        simp only [everyNth, List.length_nil]
        refine ⟨by omega, by simp, ?_⟩
        simp only [Nat.zero_add, Nat.one_mul]
        omega
      · have hrec := ih (rest.drop (s - 1)) (by
          simp only [List.length_drop]
          omega) hl'
        obtain ⟨h1, h2, h3⟩ := hrec
        have hrest : s ≤ rest.length := by
          by_contra hlt
          apply hl'
          apply List.eq_nil_of_length_eq_zero
          simp only [List.length_drop]
          omega
        set S' := (everyNth s (rest.drop (s - 1))).length with hS'
        simp only [List.length_drop] at h2 h3
        have hmul : S' * s = (S' - 1) * s + s := by
          have hS1 : S' - 1 + 1 = S' := by omega
          calc S' * s = (S' - 1 + 1) * s := by rw [hS1]
            _ = (S' - 1) * s + s := by ring
        have hS2 : S' + 1 - 1 = S' := by omega
        refine ⟨by omega, ?_, ?_⟩
        · rw [hS2, hmul]
          omega
        · have hexp : (S' + 1) * s = S' * s + s := by ring
          rw [hexp]
          omega

theorem stack_fold_length (ps : List (List (List ℚ))) (T : Nat)
    (hps : ∀ q ∈ ps, q.length = T) :
    (ps.foldr (fun piece acc => List.zipWith (· ++ ·) piece acc)
      (List.replicate T ([] : List ℚ))).length = T := by
  induction ps with
  | nil => simp
  | cons q ps ih =>
    simp only [List.foldr_cons, List.length_zipWith,
      hps q (List.mem_cons_self _ _),
      ih (fun r hr => hps r (List.mem_cons_of_mem _ hr))]
    omega

theorem stack_fold_getD (ps : List (List (List ℚ))) (T t : Nat)
    (hps : ∀ q ∈ ps, q.length = T) (ht : t < T) :
    (ps.foldr (fun piece acc => List.zipWith (· ++ ·) piece acc)
      (List.replicate T ([] : List ℚ))).getD t []
      = (ps.map (fun q => q.getD t [])).flatten := by
  induction ps with
  | nil =>
    simp only [List.foldr_nil, List.map_nil, List.flatten_nil]
    rw [List.getD_eq_getElem?_getD, List.getElem?_replicate]
    split <;> rfl
  | cons q ps ih =>
    simp only [List.foldr_cons, List.map_cons, List.flatten_cons]
    rw [getD_zipWith _ _ _ t [] [] [] (by
        rw [hps q (List.mem_cons_self _ _)]; exact ht)
      (by
        rw [stack_fold_length ps T
          (fun r hr => hps r (List.mem_cons_of_mem _ hr))]
        exact ht)]
    rw [ih (fun r hr => hps r (List.mem_cons_of_mem _ hr))]

theorem flatten_chunk_getD (fs : List (List ℚ)) (dd : Nat)
    (hfs : ∀ f ∈ fs, f.length = dd) :
    ∀ j, j < fs.length →
      ((fs.flatten.drop (j * dd)).take dd) = fs.getD j [] := by
  induction fs with
  | nil => intro j hj; simp at hj
  | cons f fs ih =>
    intro j hj
    cases j with
    | zero =>
      simp only [List.flatten_cons, Nat.zero_mul, List.drop_zero,
        List.getD_cons_zero]
      rw [← hfs f (List.mem_cons_self _ _)]
      exact List.take_left _ _
    | succ j =>
      simp only [List.flatten_cons, List.getD_cons_succ]
      have hidx : (j + 1) * dd = f.length + j * dd := by
        rw [hfs f (List.mem_cons_self _ _)]; ring
      rw [hidx, List.drop_append]
      exact ih (fun g hg => hfs g (List.mem_cons_of_mem _ hg)) j
        (by simpa using hj)

theorem flatten_uniform_length (fs : List (List ℚ)) (dd : Nat)
    (hfs : ∀ f ∈ fs, f.length = dd) :
    fs.flatten.length = fs.length * dd := by
  induction fs with
  | nil => simp
  | cons f fs ih =>
    simp only [List.flatten_cons, List.length_append,
      hfs f (List.mem_cons_self _ _),
      ih (fun g hg => hfs g (List.mem_cons_of_mem _ hg)), List.length_cons]
    ring

theorem getD_middle {α : Type} (u v w : List α) (t : Nat) (d : α)
    (ht : t < v.length) :
    (u ++ (v ++ w)).getD (u.length + t) d = v.getD t d := by
  rw [List.getD_eq_getElem?_getD, List.getElem?_append_right (by omega),
    Nat.add_sub_cancel_left, List.getElem?_append, if_pos ht,
    ← List.getD_eq_getElem?_getD]

theorem stackPadded_mem (p : StackingHParams) (pv : ℚ) (d : Nat)
    (x : List (List ℚ)) (f : List ℚ) (hf : f ∈ stackPadded p pv d x) :
    f = List.replicate d pv ∨ f ∈ x := by
  have hI1 : ∀ g, g ∈ (if p.pad_with_left_frame
      then (x.take 1).flatMap (List.replicate p.left_context) ++ x
      else x) → g ∈ x := by
    intro g hg
    split at hg
    · rcases List.mem_append.mp hg with hg | hg
      · rcases List.mem_flatMap.mp hg with ⟨g2, hg2, hgg⟩
        rcases List.eq_of_mem_replicate hgg with rfl
        exact (List.take_sublist _ _).mem hg2
      · exact hg
    · exact hg
  simp only [stackPadded] at hf
  rcases List.mem_append.mp hf with hf | hf
  · rcases List.mem_append.mp hf with hf | hf
    · exact Or.inl (List.eq_of_mem_replicate hf)
    · split at hf
      · rcases List.mem_append.mp hf with hf | hf
        · exact Or.inr (hI1 f hf)
        · rcases List.mem_flatMap.mp hf with ⟨g, hg, hfg⟩
          have hfeq : f = g := List.eq_of_mem_replicate hfg
          subst hfeq
          exact Or.inr (hI1 f ((List.drop_sublist _ _).mem hg))
      · exact Or.inr (hI1 f hf)
  · exact Or.inl (List.eq_of_mem_replicate hf)

theorem stackPadded_frame_length (p : StackingHParams) (pv : ℚ) (d : Nat)
    (x : List (List ℚ)) (hd : ∀ f ∈ x, f.length = d) :
    ∀ f ∈ stackPadded p pv d x, f.length = d := by
  intro f hf
  rcases stackPadded_mem p pv d x f hf with rfl | hf
  · exact List.length_replicate _ _
  · exact hd f hf

theorem stackPadded_length (p : StackingHParams) (pv : ℚ) (d : Nat)
    (x : List (List ℚ)) (hx : x ≠ []) :
    (stackPadded p pv d x).length
      = p.left_context + x.length + p.right_context := by
  have hI1len : (if p.pad_with_left_frame
      then (x.take 1).flatMap (List.replicate p.left_context) ++ x
      else x).length
      = (if p.pad_with_left_frame then p.left_context else 0)
        + x.length := by
    obtain ⟨f0, xs, rfl⟩ : ∃ f0 xs, x = f0 :: xs := by
      cases x with
      | nil => exact absurd rfl hx
      | cons f xs => exact ⟨f, xs, rfl⟩
    split
    · rw [List.length_append,
        flatMap_uniform_length ((f0 :: xs).take 1)
          (List.replicate p.left_context) p.left_context
          (fun a _ => List.length_replicate _ _)]
      simp
    · simp
  have hI1ne : (if p.pad_with_left_frame
      then (x.take 1).flatMap (List.replicate p.left_context) ++ x
      else x) ≠ [] := by
    intro hcon
    have hlen := congrArg List.length hcon
    rw [hI1len] at hlen
    simp only [List.length_nil] at hlen
    have hxlen : 0 < x.length := List.length_pos.mpr hx
    omega
  have hI2len : (if p.pad_with_right_frame
      then (if p.pad_with_left_frame
          then (x.take 1).flatMap (List.replicate p.left_context) ++ x
          else x)
        ++ ((if p.pad_with_left_frame
          then (x.take 1).flatMap (List.replicate p.left_context) ++ x
          else x).drop
            ((if p.pad_with_left_frame
              then (x.take 1).flatMap (List.replicate p.left_context) ++ x
              else x).length - 1)).flatMap
          (List.replicate p.right_context)
      else (if p.pad_with_left_frame
          then (x.take 1).flatMap (List.replicate p.left_context) ++ x
          else x)).length
      = (if p.pad_with_left_frame then p.left_context else 0) + x.length
        + (if p.pad_with_right_frame then p.right_context else 0) := by
    split
    · rw [List.length_append,
        flatMap_uniform_length _ (List.replicate p.right_context)
          p.right_context (fun a _ => List.length_replicate _ _),
        List.length_drop, hI1len]
      have hxlen : 0 < x.length := List.length_pos.mpr hx
      have : (if p.pad_with_left_frame then p.left_context else 0)
          + x.length - ((if p.pad_with_left_frame then p.left_context
            else 0) + x.length - 1) = 1 := by omega
      rw [this]
      omega
    · rw [hI1len]
      omega
  simp only [stackPadded, List.length_append, List.length_replicate,
    hI2len]
  split <;> split <;> omega

theorem stackPadded_getD (p : StackingHParams) (pv : ℚ) (d : Nat)
    (x : List (List ℚ)) (t : Nat) (ht : t < x.length) :
    (stackPadded p pv d x).getD (p.left_context + t) [] = x.getD t [] := by
  obtain ⟨f0, xs, rfl⟩ : ∃ f0 xs, x = f0 :: xs := by
    cases x with
    | nil => simp at ht
    | cons f xs => exact ⟨f, xs, rfl⟩
  cases hPL : p.pad_with_left_frame <;>
    cases hPR : p.pad_with_right_frame <;>
      simp only [stackPadded, hPL, hPR, Bool.false_eq_true, ite_true,
        ite_false, if_neg, if_pos, List.replicate_zero, List.nil_append,
        List.append_nil, List.take_succ_cons, List.take_zero,
        List.flatMap_cons, List.flatMap_nil]
  · -- no frame padding on either side: zeros left and right
    rw [List.append_assoc]
    have hmid := getD_middle
      (List.replicate p.left_context (List.replicate d pv)) (f0 :: xs)
      (List.replicate p.right_context (List.replicate d pv)) t [] ht
    rw [List.length_replicate] at hmid
    exact hmid
  · -- right-frame padding only: zeros left, copies of the last frame right
    have hmid := getD_middle
      (List.replicate p.left_context (List.replicate d pv)) (f0 :: xs)
      (((f0 :: xs).drop ((f0 :: xs).length - 1)).flatMap
        (List.replicate p.right_context)) t [] ht
    rw [List.length_replicate] at hmid
    exact hmid
  · -- left-frame padding only: copies of the first frame left, zeros right
    have hmid := getD_middle (List.replicate p.left_context f0) (f0 :: xs)
      (List.replicate p.right_context (List.replicate d pv)) t [] ht
    rw [List.length_replicate] at hmid
    rw [← List.append_assoc] at hmid
    exact hmid
  · -- frame padding on both sides
    have hmid := getD_middle (List.replicate p.left_context f0) (f0 :: xs)
      (((List.replicate p.left_context f0 ++ f0 :: xs).drop
          ((List.replicate p.left_context f0 ++ f0 :: xs).length - 1)).flatMap
        (List.replicate p.right_context)) t [] ht
    rw [List.length_replicate] at hmid
    rw [← List.append_assoc] at hmid
    exact hmid

theorem stackOut_pieces_length (p : StackingHParams) (pv : ℚ) (d : Nat)
    (x : List (List ℚ)) :
    ∀ q ∈ (List.range (window_size p)).map (fun i =>
      ((stackPadded p pv d x).drop i).take x.length), q.length = x.length := by
  intro q hq
  rcases List.mem_map.mp hq with ⟨i, hi, rfl⟩
  rw [List.length_take, List.length_drop]
  by_cases hx : x = []
  · subst hx; simp
  · rw [stackPadded_length p pv d x hx]
    have hi' := List.mem_range.mp hi
    unfold window_size at hi'
    omega

theorem stackOut_length (p : StackingHParams) (pv : ℚ) (d : Nat)
    (x : List (List ℚ)) : (stackOut p pv d x).length = x.length := by
  simp only [stackOut]
  exact stack_fold_length _ _ (stackOut_pieces_length p pv d x)

theorem stackOut_getD (p : StackingHParams) (pv : ℚ) (d : Nat)
    (x : List (List ℚ)) (t : Nat) (ht : t < x.length) :
    (stackOut p pv d x).getD t []
      = ((List.range (window_size p)).map (fun i =>
          (stackPadded p pv d x).getD (t + i) [])).flatten := by
  simp only [stackOut]
  rw [stack_fold_getD _ x.length t (stackOut_pieces_length p pv d x) ht]
  rw [List.map_map]
  congr 1
  refine List.map_congr_left ?_
  intro i hi
  simp only [Function.comp]
  rw [List.getD_eq_getElem?_getD, List.getElem?_take, if_pos ht,
    List.getElem?_drop, ← List.getD_eq_getElem?_getD, Nat.add_comm]

/-- C5: for a StackingOverTime configuration with stride >= 1 and
right_context + 1 >= stride (which forces stride <= window_size), and an
input whose frames all have depth d, unstacking the fprop outputs
succeeds and reproduces every frame of the input: unstack never reads the
context-padding positions, only the positions where real input frames are
stored.  The result may additionally contain trailing padding frames
beyond the input length, which the claim's truncation convention
excludes. -/
theorem stacking_unstack_roundtrip (p : StackingHParams) (d : Nat)
    (x : List (List ℚ)) (hd : ∀ f ∈ x, f.length = d)
    (hs : 1 ≤ p.stride) (hrs : p.stride ≤ p.right_context + 1) :
    ∃ res, unstack p (fprop_outputs p d x) = Except.ok res ∧
      ∀ t, t < x.length → res.getD t [] = x.getD t [] := by
  by_cases htriv : p.left_context = 0 ∧ p.right_context = 0 ∧ p.stride = 1
  · refine ⟨x, ?_, fun t ht => rfl⟩
    have hfp : fprop_outputs p d x = x := by
      simp only [fprop_outputs, if_pos htriv]
    rw [hfp]
    simp only [unstack, if_pos htriv]
  · have hnz : ¬(p.left_context = 0 ∧ p.right_context = 0) := by
      intro hz
      exact htriv ⟨hz.1, hz.2, by omega⟩
    have hwsz : window_size p
        = p.left_context + p.right_context + 1 := rfl
    have hW : p.stride ≤ window_size p := by omega
    have hfp : fprop_outputs p d x
        = everyNth p.stride (stackOut p 0 d x) := by
      simp only [fprop_outputs, if_neg htriv, applystack, if_neg hnz]
    rw [hfp]
    simp only [unstack, if_neg htriv, if_neg (not_lt.mpr hW)]
    refine ⟨_, rfl, ?_⟩
    intro t ht
    have hxne : x ≠ [] := by
      intro hcon
      subst hcon
      simp at ht
    have houtlen : (stackOut p 0 d x).length = x.length :=
      stackOut_length p 0 d x
    have houtne : stackOut p 0 d x ≠ [] := by
      intro hcon
      have := congrArg List.length hcon
      rw [houtlen] at this
      simp only [List.length_nil] at this
      omega
    obtain ⟨hS1, hS2, hS3⟩ := everyNth_bounds p.stride hs
      (stackOut p 0 d x).length (stackOut p 0 d x) le_rfl houtne
    rw [houtlen] at hS2 hS3
    have hmulS : (everyNth p.stride (stackOut p 0 d x)).length * p.stride
        = ((everyNth p.stride (stackOut p 0 d x)).length - 1) * p.stride
          + p.stride := by
      have hS1' : (everyNth p.stride (stackOut p 0 d x)).length - 1 + 1
          = (everyNth p.stride (stackOut p 0 d x)).length := by omega
      calc (everyNth p.stride (stackOut p 0 d x)).length * p.stride
          = ((everyNth p.stride (stackOut p 0 d x)).length - 1 + 1)
            * p.stride := by rw [hS1']
        _ = _ := by ring
    -- every input position is covered by the gathered index list
    have hidxlen : t
        < ((everyNth p.stride (stackOut p 0 d x)).length - 1) * p.stride
          + (p.right_context + 1) := by omega
    -- the gather at any in-range (window, frame) pair reads the padded
    -- sequence at position window * stride + frame
    have hgather : ∀ w f,
        w < (everyNth p.stride (stackOut p 0 d x)).length →
        f < window_size p →
        (((everyNth p.stride (stackOut p 0 d x)).map (fun row =>
            (List.range (window_size p)).map (fun j =>
              (row.drop (j * (row.length / window_size p))).take
                (row.length / window_size p)))).getD w []).getD f []
          = (stackPadded p 0 d x).getD (w * p.stride + f) [] := by
      intro w f hw hf
      rw [getD_map_lt _ _ w [] [] hw]
      have hws : w * p.stride < (stackOut p 0 d x).length := by
        rw [houtlen]
        have hle : w * p.stride
            ≤ ((everyNth p.stride (stackOut p 0 d x)).length - 1)
              * p.stride := Nat.mul_le_mul_right _ (by omega)
        omega
      rw [everyNth_getD p.stride hs [] w (stackOut p 0 d x) hws]
      have hfs := stackOut_getD p 0 d x (w * p.stride)
        (by rw [← houtlen]; exact hws)
      have hframe_len : ∀ fr ∈ (List.range (window_size p)).map (fun i =>
          (stackPadded p 0 d x).getD (w * p.stride + i) []),
          fr.length = d := by
        intro fr hfr
        rcases List.mem_map.mp hfr with ⟨i, hi, rfl⟩
        have hi' := List.mem_range.mp hi
        have hpadlen : (stackPadded p 0 d x).length
            = p.left_context + x.length + p.right_context :=
          stackPadded_length p 0 d x hxne
        have hin : w * p.stride + i < (stackPadded p 0 d x).length := by
          rw [hpadlen]
          rw [houtlen] at hws
          omega
        exact stackPadded_frame_length p 0 d x hd _
          (getD_mem_of_lt _ _ _ hin)
      have hrowlen : ((stackOut p 0 d x).getD (w * p.stride) []).length
          = window_size p * d := by
        rw [hfs, flatten_uniform_length _ d hframe_len, List.length_map,
          List.length_range]
      rw [hrowlen, Nat.mul_div_cancel_left d (by omega)]
      rw [getD_range_map _ _ _ _ hf]
      rw [hfs, flatten_chunk_getD _ d hframe_len f
        (by rw [List.length_map, List.length_range]; exact hf)]
      rw [getD_range_map _ _ _ _ hf]
    -- read off the t-th output frame
    rw [getD_map_lt _ _ t (0, 0) [] (by
      rw [List.length_append, List.length_map, List.length_map,
        List.length_range, List.length_range]
      omega)]
    by_cases hcase : t
        < ((everyNth p.stride (stackOut p 0 d x)).length - 1) * p.stride
    · -- main part of the index list
      have hpair : ((List.range
            (((everyNth p.stride (stackOut p 0 d x)).length - 1)
              * p.stride)).map (fun t =>
            let md := t % p.stride
            let in_next := if p.right_context < md then 1 else 0
            (t / p.stride + in_next,
             p.left_context + md - p.stride * in_next)) ++
          (List.range (p.right_context + 1)).map (fun r =>
            ((everyNth p.stride (stackOut p 0 d x)).length - 1,
             p.left_context + r))).getD t (0, 0)
          = (t / p.stride + (if p.right_context < t % p.stride then 1
              else 0),
             p.left_context + t % p.stride
              - p.stride * (if p.right_context < t % p.stride then 1
                else 0)) := by
        rw [List.getD_eq_getElem?_getD, List.getElem?_append,
          if_pos (by rw [List.length_map, List.length_range]; exact hcase),
          ← List.getD_eq_getElem?_getD]
        exact getD_range_map _ _ _ _ hcase
      rw [hpair]
      have hdm := Nat.div_add_mod t p.stride
      have hmdlt : t % p.stride < p.stride := Nat.mod_lt _ (by omega)
      by_cases hmd : p.right_context < t % p.stride
      · simp only [if_pos hmd]
        have hsm : p.stride ≤ p.left_context + t % p.stride := by omega
        have hwlt : t / p.stride + 1
            < (everyNth p.stride (stackOut p 0 d x)).length := by
          have hdiv : t / p.stride
              < (everyNth p.stride (stackOut p 0 d x)).length - 1 :=
            (Nat.div_lt_iff_lt_mul (by omega)).mpr hcase
          omega
        have hflt : p.left_context + t % p.stride - p.stride * 1
            < window_size p := by omega
        rw [hgather _ _ hwlt hflt]
        have hidx : (t / p.stride + 1) * p.stride
            + (p.left_context + t % p.stride - p.stride * 1)
            = p.left_context + t := by
          have hexp : (t / p.stride + 1) * p.stride
              = p.stride * (t / p.stride) + p.stride := by ring
          omega
        rw [hidx]
        exact stackPadded_getD p 0 d x t ht
      · simp only [if_neg hmd]
        have hwlt : t / p.stride + 0
            < (everyNth p.stride (stackOut p 0 d x)).length := by
          have hdiv : t / p.stride
              < (everyNth p.stride (stackOut p 0 d x)).length - 1 :=
            (Nat.div_lt_iff_lt_mul (by omega)).mpr hcase
          omega
        have hflt : p.left_context + t % p.stride - p.stride * 0
            < window_size p := by omega
        rw [hgather _ _ hwlt hflt]
        have hidx : (t / p.stride + 0) * p.stride
            + (p.left_context + t % p.stride - p.stride * 0)
            = p.left_context + t := by
          have hexp : (t / p.stride + 0) * p.stride
              = p.stride * (t / p.stride) := by ring
          omega
        rw [hidx]
        exact stackPadded_getD p 0 d x t ht
    · -- last-window part of the index list
      have hpair : ((List.range
            (((everyNth p.stride (stackOut p 0 d x)).length - 1)
              * p.stride)).map (fun t =>
            let md := t % p.stride
            let in_next := if p.right_context < md then 1 else 0
            (t / p.stride + in_next,
             p.left_context + md - p.stride * in_next)) ++
          (List.range (p.right_context + 1)).map (fun r =>
            ((everyNth p.stride (stackOut p 0 d x)).length - 1,
             p.left_context + r))).getD t (0, 0)
          = ((everyNth p.stride (stackOut p 0 d x)).length - 1,
             p.left_context
              + (t - ((everyNth p.stride (stackOut p 0 d x)).length - 1)
                  * p.stride)) := by
        rw [List.getD_eq_getElem?_getD, List.getElem?_append,
          if_neg (by
            rw [List.length_map, List.length_range]
            omega),
          List.length_map, List.length_range,
          ← List.getD_eq_getElem?_getD]
        exact getD_range_map _ _ _ _ (by omega)
      rw [hpair]
      have hwlt : (everyNth p.stride (stackOut p 0 d x)).length - 1
          < (everyNth p.stride (stackOut p 0 d x)).length := by omega
      have hflt : p.left_context
          + (t - ((everyNth p.stride (stackOut p 0 d x)).length - 1)
              * p.stride) < window_size p := by omega
      rw [hgather _ _ hwlt hflt]
      have hidx : ((everyNth p.stride (stackOut p 0 d x)).length - 1)
          * p.stride
          + (p.left_context
            + (t - ((everyNth p.stride (stackOut p 0 d x)).length - 1)
                * p.stride))
          = p.left_context + t := by omega
      rw [hidx]
      exact stackPadded_getD p 0 d x t ht

/-- Witness for C5 at the class docstring input [4],[1],[9],[3],[5],[2],
[8] with left_context 1, right_context 2, stride 3, depth 1. -/
theorem stacking_unstack_roundtrip_witness :
    ∃ res, unstack ⟨1, 2, 3, false, false⟩
        (fprop_outputs ⟨1, 2, 3, false, false⟩ 1
          [[4], [1], [9], [3], [5], [2], [8]]) = Except.ok res ∧
      ∀ t, t < ([[4], [1], [9], [3], [5], [2], [8]] :
          List (List ℚ)).length →
        res.getD t [] = ([[4], [1], [9], [3], [5], [2], [8]] :
          List (List ℚ)).getD t [] :=
  stacking_unstack_roundtrip ⟨1, 2, 3, false, false⟩ 1
    [[4], [1], [9], [3], [5], [2], [8]] (by decide) (by decide) (by decide)

end StackingOverTime

/-! ### MaskedLmDataAugmenter (layers/augmentations.py, lines 32-119) -/

/-- Hyperparameters of MaskedLmDataAugmenter consumed by fprop. -/
structure MaskedLmHParams where
  vocab_size : Nat
  mask_prob : ℚ
  random_prob : ℚ
  same_prob : ℚ
  mask_token_id : Int

/-- Embedding of MaskedLmDataAugmenter.fprop for one flattened position
axis (every tensor operation in the source is elementwise over the
[batch, length] grid).  The three _uniform_sample draws and the
random_tokens draw are explicit arguments: the source draws them from the
PRNG, and the claim quantifies over every outcome.  The asserts are the
error branches; .astype(input_dtype) on the 0/1 position indicators is
integer truncation. -/
def MaskedLmDataAugmenter_fprop (hp : MaskedLmHParams)
    (inputs : List Int) (paddings : List ℚ)
    (u_replacement u_mask u_random : List ℚ)
    (random_tokens : List Int) :
    Except String (List Int × List ℚ) :=
  if 0 < hp.vocab_size then
    if 0 ≤ hp.mask_token_id then
      if hp.mask_prob + hp.random_prob + hp.same_prob < 1 then
        if 0 < hp.mask_prob + hp.random_prob + hp.same_prob then
          let total_replacement_prob :=
            hp.mask_prob + hp.random_prob + hp.same_prob
          let valid_tokens := paddings.map (fun q => 1 - q)
          let replacement_pos :=
            List.zipWith (· * ·) valid_tokens u_replacement
          let no_replacement := replacement_pos.map (fun q => 1 - q)
          let mask_pos := List.zipWith (· * ·) replacement_pos u_mask
          let remaining_prob := total_replacement_prob - hp.mask_prob
          let remaining_pos :=
            List.zipWith (· - ·) replacement_pos mask_pos
          if 0 < remaining_prob then
            let random_pos :=
              List.zipWith (· * ·) remaining_pos u_random
            let self_pos :=
              List.zipWith (· - ·) remaining_pos random_pos
            let mask_tokens := inputs.map (fun _ => hp.mask_token_id)
            let augmented := (List.range inputs.length).map (fun i =>
              inputs.getD i 0 * truncToInt (no_replacement.getD i 0)
              + mask_tokens.getD i 0 * truncToInt (mask_pos.getD i 0)
              + random_tokens.getD i 0 * truncToInt (random_pos.getD i 0)
              + inputs.getD i 0 * truncToInt (self_pos.getD i 0))
            .ok (augmented, replacement_pos)
          else .error "assert remaining_prob > 0.0"
        else .error "assert mask_prob + random_prob + same_prob > 0.0"
      else .error "assert mask_prob + random_prob + same_prob < 1.0"
    else .error "assert mask_token_id >= 0"
  else .error "assert vocab_size > 0"

theorem truncToInt_zero : truncToInt 0 = 0 := rfl

theorem truncToInt_one : truncToInt 1 = 1 := rfl

/-- C10: MaskedLmDataAugmenter.fprop never alters padded positions: at
every position where paddings is 1, and for every outcome of the three
uniform draws and of the random-token draw, the augmented token equals
the original token and the returned replacement mask is 0. -/
theorem MaskedLmDataAugmenter_fprop_frames_padded (hp : MaskedLmHParams)
    (inputs : List Int) (paddings : List ℚ)
    (u_replacement u_mask u_random : List ℚ)
    (random_tokens : List Int)
    (hv : 0 < hp.vocab_size) (hm : 0 ≤ hp.mask_token_id)
    (h1 : hp.mask_prob + hp.random_prob + hp.same_prob < 1)
    (h0 : 0 < hp.mask_prob + hp.random_prob + hp.same_prob)
    (h2 : 0 < hp.mask_prob + hp.random_prob + hp.same_prob - hp.mask_prob)
    (i : Nat) (hi : i < inputs.length) (hip : i < paddings.length)
    (hu1 : i < u_replacement.length) (hu2 : i < u_mask.length)
    (hu3 : i < u_random.length)
    (hpad : paddings.getD i 0 = 1) :
    ∃ augmented mask,
      MaskedLmDataAugmenter_fprop hp inputs paddings u_replacement u_mask
        u_random random_tokens = Except.ok (augmented, mask) ∧
      augmented.getD i 0 = inputs.getD i 0 ∧
      mask.getD i 0 = 0 := by
  simp only [MaskedLmDataAugmenter_fprop, if_pos hv, if_pos hm, if_pos h1,
    if_pos h0, if_pos h2]
  refine ⟨_, _, rfl, ?_, ?_⟩
  · -- the augmented token at a padded position is the original token
    rw [getD_range_map _ _ _ _ hi]
    have hvl : (paddings.map (fun q => (1 : ℚ) - q)).length
        = paddings.length := List.length_map _ _
    have hrep : (List.zipWith (· * ·) (paddings.map (fun q => (1 : ℚ) - q))
        u_replacement).getD i 0 = 0 := by
      rw [getD_zipWith _ _ _ i 0 0 0 (by rw [hvl]; exact hip) hu1,
        getD_map_lt _ _ i 0 0 hip, hpad]
      ring
    have hreplen : i < (List.zipWith (· * ·)
        (paddings.map (fun q => (1 : ℚ) - q)) u_replacement).length := by
      rw [List.length_zipWith, hvl]
      omega
    have hnorep : ((List.zipWith (· * ·)
        (paddings.map (fun q => (1 : ℚ) - q)) u_replacement).map
        (fun q => 1 - q)).getD i 0 = 1 := by
      rw [getD_map_lt _ _ i 0 0 hreplen, hrep]
      ring
    have hmask : (List.zipWith (· * ·) (List.zipWith (· * ·)
        (paddings.map (fun q => (1 : ℚ) - q)) u_replacement)
        u_mask).getD i 0 = 0 := by
      rw [getD_zipWith _ _ _ i 0 0 0 hreplen hu2, hrep]
      ring
    have hmasklen : i < (List.zipWith (· * ·) (List.zipWith (· * ·)
        (paddings.map (fun q => (1 : ℚ) - q)) u_replacement)
        u_mask).length := by
      rw [List.length_zipWith]
      omega
    have hrem : (List.zipWith (· - ·) (List.zipWith (· * ·)
        (paddings.map (fun q => (1 : ℚ) - q)) u_replacement)
        (List.zipWith (· * ·) (List.zipWith (· * ·)
          (paddings.map (fun q => (1 : ℚ) - q)) u_replacement)
          u_mask)).getD i 0 = 0 := by
      rw [getD_zipWith _ _ _ i 0 0 0 hreplen hmasklen, hrep, hmask]
      ring
    have hremlen : i < (List.zipWith (· - ·) (List.zipWith (· * ·)
        (paddings.map (fun q => (1 : ℚ) - q)) u_replacement)
        (List.zipWith (· * ·) (List.zipWith (· * ·)
          (paddings.map (fun q => (1 : ℚ) - q)) u_replacement)
          u_mask)).length := by
      rw [List.length_zipWith]
      omega
    have hrand : (List.zipWith (· * ·) (List.zipWith (· - ·)
        (List.zipWith (· * ·) (paddings.map (fun q => (1 : ℚ) - q))
          u_replacement)
        (List.zipWith (· * ·) (List.zipWith (· * ·)
          (paddings.map (fun q => (1 : ℚ) - q)) u_replacement) u_mask))
        u_random).getD i 0 = 0 := by
      rw [getD_zipWith _ _ _ i 0 0 0 hremlen hu3, hrem]
      ring
    have hrandlen : i < (List.zipWith (· * ·) (List.zipWith (· - ·)
        (List.zipWith (· * ·) (paddings.map (fun q => (1 : ℚ) - q))
          u_replacement)
        (List.zipWith (· * ·) (List.zipWith (· * ·)
          (paddings.map (fun q => (1 : ℚ) - q)) u_replacement) u_mask))
        u_random).length := by
      rw [List.length_zipWith]
      omega
    have hself : (List.zipWith (· - ·) (List.zipWith (· - ·)
        (List.zipWith (· * ·) (paddings.map (fun q => (1 : ℚ) - q))
          u_replacement)
        (List.zipWith (· * ·) (List.zipWith (· * ·)
          (paddings.map (fun q => (1 : ℚ) - q)) u_replacement) u_mask))
        (List.zipWith (· * ·) (List.zipWith (· - ·)
          (List.zipWith (· * ·) (paddings.map (fun q => (1 : ℚ) - q))
            u_replacement)
          (List.zipWith (· * ·) (List.zipWith (· * ·)
            (paddings.map (fun q => (1 : ℚ) - q)) u_replacement) u_mask))
          u_random)).getD i 0 = 0 := by
      rw [getD_zipWith _ _ _ i 0 0 0 hremlen hrandlen, hrem, hrand]
      ring
    rw [hnorep, hmask, hrand, hself, truncToInt_zero, truncToInt_one]
    ring
  · -- the replacement mask at a padded position is 0
    rw [getD_zipWith _ _ _ i 0 0 0 (by rw [List.length_map]; exact hip)
      hu1, getD_map_lt _ _ i 0 0 hip, hpad]
    ring

/-- Witness for C10 at a concrete padded position: position 1 is padding,
the draws all fire (indicator 1) and a random token is available, yet the
token survives unchanged and the mask is 0 there. -/
theorem MaskedLmDataAugmenter_fprop_frames_padded_witness :
    ∃ augmented mask,
      MaskedLmDataAugmenter_fprop ⟨4, 12 / 100, 15 / 1000, 15 / 1000, 3⟩
        [7, 9] [0, 1] [1, 1] [1, 1] [1, 1] [2, 2]
        = Except.ok (augmented, mask) ∧
      augmented.getD 1 0 = ([7, 9] : List Int).getD 1 0 ∧
      mask.getD 1 0 = 0 :=
  MaskedLmDataAugmenter_fprop_frames_padded
    ⟨4, 12 / 100, 15 / 1000, 15 / 1000, 3⟩ [7, 9] [0, 1] [1, 1] [1, 1]
    [1, 1] [2, 2] (by decide) (by decide) (by norm_num) (by norm_num)
    (by norm_num) 1 (by decide) (by decide) (by decide) (by decide)
    (by decide) (by decide)

end Praxis
